import Mathlib

/-!
Verification of the task-hierarchy parser and batch completion engine of the
specs-workflow repository.  The definitions below are a shallow embedding of
`src/features/shared/taskParser.ts` (`parseTasksFromContent`,
`getFirstUncompletedTask`, `findMainTaskTitle`) and
`src/features/task/completeTask.ts` (`completeBatchTasks`,
`completeSingleTask`, `markTaskAsCompleted`, `containsTaskNumber`,
`findTaskByNumber`).  JavaScript regular expressions are embedded as
hand-written deterministic scanners over `List Char`; each scanner's doc
comment records the regex it models, including its backtracking behaviour.
Character classes are modelled on their ASCII core (`\s`, `\w`, `\d` of
JS regexes restricted to ASCII), which covers every character class use in
the sources on the documents they handle.
-/

namespace SpecsWorkflow

/-- ASCII core of the JS `\s` class (space, tab, LF, CR, VT, FF). -/
def isSpaceChar (c : Char) : Bool :=
  c == ' ' || c == '\t' || c == '\n' || c == '\r' || c == '\x0b' || c == '\x0c'

/-- JS `\w` word characters: `[A-Za-z0-9_]`. -/
def isWordChar (c : Char) : Bool :=
  ('a' ≤ c && c ≤ 'z') || ('A' ≤ c && c ≤ 'Z') || ('0' ≤ c && c ≤ '9') || c == '_'

/-- the character class `[\s\-*]` used around checkboxes and ids. -/
def isMarkerChar (c : Char) : Bool :=
  isSpaceChar c || c == '-' || c == '*'

/-- the checkbox state characters of `[xX ]` / `([xX ])`. -/
def isCheckMark (c : Char) : Bool :=
  c == 'x' || c == 'X' || c == ' '

/-- leftmost match of `/\[([xX ])\]/`, returning the captured state char
(on failure at a position the scan advances one character). -/
def findCheckbox : List Char → Option Char
  | '[' :: c :: ']' :: rest =>
    if isCheckMark c then some c else findCheckbox (c :: ']' :: rest)
  | _ :: rest => findCheckbox rest
  | [] => none

/-- `line.replace(/\[([xX ])\]/, "")`: delete the first checkbox. -/
def removeFirstCheckbox : List Char → List Char
  | '[' :: c :: ']' :: rest2 =>
    if isCheckMark c then rest2 else '[' :: removeFirstCheckbox (c :: ']' :: rest2)
  | c :: rest => c :: removeFirstCheckbox rest
  | [] => []

/-- `line.replace(/\[[xX ]\]/g, "")`: delete every checkbox, scanning
left-to-right without overlap. -/
def removeAllCheckboxes : List Char → List Char
  | '[' :: c :: ']' :: rest2 =>
    if isCheckMark c then removeAllCheckboxes rest2
    else '[' :: removeAllCheckboxes (c :: ']' :: rest2)
  | c :: rest => c :: removeAllCheckboxes rest
  | [] => []

/-- `line.includes('[ ]')`. -/
def containsUnchecked : List Char → Bool
  | [] => false
  | '[' :: ' ' :: ']' :: _ => true
  | _ :: rest => containsUnchecked rest

/-- `line.replace('[ ]', '[x]')`: string replace of the first occurrence. -/
def replaceFirstUnchecked : List Char → List Char
  | [] => []
  | '[' :: ' ' :: ']' :: rest => '[' :: 'x' :: ']' :: rest
  | c :: rest => c :: replaceFirstUnchecked rest

/-- JS `trim()` on a single line (ASCII whitespace). -/
def trimChars (l : List Char) : List Char :=
  ((l.dropWhile isSpaceChar).reverse.dropWhile isSpaceChar).reverse

/-- greedy `\d+` prefix: the run of digits and the remainder. -/
def takeDigits (l : List Char) : List Char × List Char :=
  (l.takeWhile Char.isDigit, l.dropWhile Char.isDigit)

theorem length_dropWhileLe (p : Char → Bool) (l : List Char) :
    (l.dropWhile p).length ≤ l.length := by
  induction l with
  | nil => simp [List.dropWhile]
  | cons a l ih =>
    simp only [List.dropWhile]
    cases p a
    · simp
    · simp
      omega

/-- fuelled worker for `parseDotGroups`; each step consumes at least two
characters while spending one unit of fuel, so with the list length as fuel
the zero-fuel arm is unreachable on a nonempty list. -/
def parseDotGroupsF : Nat → List Char → List Char × List Char
  | 0, l => ([], l)
  | fuel + 1, l =>
    match l with
    | '.' :: rest =>
      let ds := rest.takeWhile Char.isDigit
      if ds.isEmpty then ([], l)
      else
        let (gs, r) := parseDotGroupsF fuel (rest.dropWhile Char.isDigit)
        ('.' :: (ds ++ gs), r)
    | _ => ([], l)

/-- greedy `(?:\.\d+)*`: maximal run of `.digits` groups, and the remainder.
A dot not followed by a digit is not consumed. -/
def parseDotGroups (l : List Char) : List Char × List Char :=
  parseDotGroupsF l.length l

/-- `s.split(sep)` for a one-character separator (always a nonempty list of
pieces). -/
def splitOnChar (sep : Char) : List Char → List (List Char)
  | [] => [[]]
  | c :: rest =>
    let r := splitOnChar sep rest
    if c == sep then [] :: r
    else
      match r with
      | [] => [[c]]
      | h :: t => (c :: h) :: t

/-- `content.split('\n')`. -/
def splitLines (s : String) : List String :=
  (splitOnChar '\n' s.data).map (fun cs => ⟨cs⟩)

/-- `s.split('.')`. -/
def splitDots (s : String) : List String :=
  (splitOnChar '.' s.data).map (fun cs => ⟨cs⟩)

/-- `s.includes(c)` / `s.contains(c)` on one character. -/
def strContains (s : String) (c : Char) : Bool :=
  s.data.contains c

/-- the trailing-delimiter class `[.\s:)]` of the primary id regex. -/
def delimAfterNumber (c : Char) : Bool :=
  c == '.' || isSpaceChar c || c == ':' || c == ')'

/-- drop the last `.digits` group of a nonempty group run
(the one-step backtracking of `(?:\.\d+)*` when the delimiter fails;
after the drop the next character is the dropped `.`, which satisfies
the delimiter class, so exactly one group is ever dropped). -/
def dropLastSegment (gs : List Char) : List Char :=
  (((gs.reverse.dropWhile (fun c => c != '.')).drop 1)).reverse

/-- `line.match(/^[\s\-*]*\[([xX ])\][\s\-*]*(\d+(?:\.\d+)*)[.\s:)]/)`,
returning capture group 2 (the task number).  All class runs are
deterministic maximal munch; the only backtracking point is the greedy
group run against the trailing delimiter, resolved by `dropLastSegment`. -/
def matchPrimaryNumber (l : List Char) : Option (List Char) :=
  match l.dropWhile isMarkerChar with
  | '[' :: c :: ']' :: r2 =>
    if isCheckMark c then
      let r3 := r2.dropWhile isMarkerChar
      match takeDigits r3 with
      | ([], _) => none
      | (ds, r4) =>
        let (gs, r5) := parseDotGroups r4
        match r5 with
        | d :: _ =>
          if delimAfterNumber d then some (ds ++ gs)
          else if gs.isEmpty then none else some (ds ++ dropLastSegment gs)
        | [] => if gs.isEmpty then none else some (ds ++ dropLastSegment gs)
    else none
  | _ => none

/-- unanchored `line.match(/\[([xX ])\][\s\-*]*(\d+(?:\.\d+)*)/)`:
leftmost position where a checkbox is followed (after optional markers)
by a dotted digit run; returns capture group 2. -/
def matchFallbackNumber : List Char → Option (List Char)
  | '[' :: c :: ']' :: r2 =>
    if isCheckMark c then
      match takeDigits (r2.dropWhile isMarkerChar) with
      | ([], _) => matchFallbackNumber (c :: ']' :: r2)
      | (ds, r4) =>
        let (gs, _) := parseDotGroups r4
        some (ds ++ gs)
    else matchFallbackNumber (c :: ']' :: r2)
  | _ :: rest => matchFallbackNumber rest
  | [] => none

/-- `description.replace(new RegExp("^[\\s\\-*]*" + escapedTaskNumber + "[.:\\s]*"), "")`:
if the prefix matches, it is removed; otherwise the string is unchanged. -/
def stripNumPrefix (num : List Char) (l : List Char) : List Char :=
  let l1 := l.dropWhile isMarkerChar
  if num.isPrefixOf l1 then
    (l1.drop num.length).dropWhile (fun c => c == '.' || c == ':' || isSpaceChar c)
  else l

/-- `description.replace(/^[\s\-*]+/, "")`. -/
def stripLeadingMarkers (l : List Char) : List Char :=
  l.dropWhile isMarkerChar

/-- `nextLine.match(/^#/)`. -/
def startsHash : List Char → Bool
  | '#' :: _ => true
  | _ => false

/-- the `Task` interface of `taskParser.ts`:
`{number, description, checked, subtasks?, isVirtual?}`.
`subtasks = none` models an absent (`undefined`) field; `isVirtual`
defaults to `false` (absent and `false` are indistinguishable to every
consumer, which only uses it in boolean position). -/
inductive Task where
  | mk (number : String) (description : String) (checked : Bool)
       (subtasks : Option (List Task)) (isVirtual : Bool)

def Task.number : Task → String
  | .mk n _ _ _ _ => n

def Task.description : Task → String
  | .mk _ d _ _ _ => d

def Task.checked : Task → Bool
  | .mk _ _ c _ _ => c

def Task.subtasks : Task → Option (List Task)
  | .mk _ _ _ s _ => s

def Task.isVirtual : Task → Bool
  | .mk _ _ _ _ v => v

/-- list of direct children (`[]` when the `subtasks` field is absent). -/
def Task.children (t : Task) : List Task :=
  (t.subtasks).getD []

/-- Phase 1 of `parseTasksFromContent`: scan the lines for checkbox tasks.
Per line containing a checkbox: the checked flag comes from the first
checkbox; the number from the primary (anchored) regex, else the fallback;
the description from the line after stripping checkbox / number / markers,
with an empty description taken from the next line when that line is
nonempty, has no checkbox and is not a heading (that line is then skipped);
a task whose description stays empty is dropped. -/
def scanTasks : List String → List Task
  | [] => []
  | line :: rest =>
    match findCheckbox line.data with
    | none => scanTasks rest
    | some cb =>
      match (match matchPrimaryNumber line.data with
             | some n => some n
             | none => matchFallbackNumber line.data) with
      | none => scanTasks rest
      | some numChars =>
        let checked := cb == 'x' || cb == 'X'
        let d0 := trimChars (stripLeadingMarkers
          (stripNumPrefix numChars (removeFirstCheckbox line.data)))
        if d0.isEmpty then
          match rest with
          | [] => []
          | next :: rest2 =>
            let nl := trimChars next.data
            if !nl.isEmpty && (findCheckbox nl).isNone && !startsHash nl then
              Task.mk ⟨numChars⟩ ⟨nl⟩ checked none false :: scanTasks rest2
            else
              scanTasks (next :: rest2)
        else
          Task.mk ⟨numChars⟩ ⟨d0⟩ checked none false :: scanTasks rest

/-- `line.match(/^#+\s*(\d+)\.\s*(.+)$/)` returning `(group1, group2.trim())`.
When everything after the dot is whitespace the greedy `\s*` backtracks one
character and group 2 is that single space, so the trimmed title is `""`;
in every case the trimmed title equals `trimChars` of the full tail, which
must be nonempty for the regex to match. -/
def headerTitle? (l : List Char) : Option (String × String) :=
  match l.span (fun c => c == '#') with
  | ([], _) => none
  | (_, r1) =>
    match takeDigits (r1.dropWhile isSpaceChar) with
    | ([], _) => none
    | (ds, r3) =>
      match r3 with
      | '.' :: tail => if tail.isEmpty then none else some (⟨ds⟩, ⟨trimChars tail⟩)
      | _ => none

/-- `line.match(/^(\d+)\.\s*\*\*(.+?)\*\*$/)` returning `(group1, group2.trim())`:
the line must end in `**` and the (nonempty) lazy group 2 is everything
between the opening `**` and that final `**`. -/
def boldTitle? (l : List Char) : Option (String × String) :=
  match takeDigits l with
  | ([], _) => none
  | (ds, r1) =>
    match r1 with
    | '.' :: r2 =>
      match r2.dropWhile isSpaceChar with
      | '*' :: '*' :: rem =>
        match rem.reverse with
        | '*' :: '*' :: (c :: cs) => some (⟨ds⟩, ⟨trimChars ((c :: cs).reverse)⟩)
        | _ => none
      | _ => none
    | _ => none

/-- `findMainTaskTitle(lines, taskNumber)`: first heading match with the
wanted number, else first bold-emphasis match, else `null`. -/
def findMainTaskTitle (lines : List String) (taskNumber : String) : Option String :=
  match lines.findSome? (fun line =>
      match headerTitle? line.data with
      | some (n, t) => if n == taskNumber then some t else none
      | none => none) with
  | some t => some t
  | none =>
    lines.findSome? (fun line =>
      match boldTitle? line.data with
      | some (n, t) => if n == taskNumber then some t else none
      | none => none)

/-- `betterTitle || `Task Group N``: the found title when truthy,
the fallback when `null` or `""`. -/
def titleForGroup (lines : List String) (seg : String) : String :=
  match findMainTaskTitle lines seg with
  | some s => if s.data.isEmpty then "Task Group " ++ seg else s
  | none => "Task Group " ++ seg

/-- `taskNumber.split(".")[0]`. -/
def firstSegment (s : String) : String :=
  (splitDots s).headD ""

/-- the `taskMap` of phase 2: name-to-index into the root list,
later `set` wins on `get` (modelled by cons + first match). -/
abbrev RootIdx := List (String × Nat)

def lookupIdx (m : RootIdx) (k : String) : Option Nat :=
  (m.find? (fun p => p.1 == k)).map (fun p => p.2)

def setIdx (m : RootIdx) (k : String) (v : Nat) : RootIdx :=
  (k, v) :: m

/-- in-place update of the root at an index (JS mutates through the map's
object reference; out-of-range indices cannot occur). -/
def updateAt : List Task → Nat → (Task → Task) → List Task
  | [], _, _ => []
  | x :: xs, 0, f => f x :: xs
  | x :: xs, n + 1, f => x :: updateAt xs n f

/-- `if (!parent.subtasks) parent.subtasks = []; parent.subtasks.push(task)`. -/
def pushSubtask (t : Task) : Task → Task
  | .mk n d c s v => .mk n d c (some (s.getD [] ++ [t])) v

/-- phase 2 pass over top-level tasks: push each dotless task as a root and
record it in the map (later duplicates overwrite the map entry). -/
def passAStep (st : List Task × RootIdx) (t : Task) : List Task × RootIdx :=
  if strContains t.number '.' then st
  else (st.1 ++ [t], setIdx st.2 t.number st.1.length)

/-- phase 2 pass over subtasks: attach each dotted task under the root keyed
by its first segment, synthesizing a virtual root when the key is absent. -/
def passBStep (lines : List String) (st : List Task × RootIdx) (t : Task) :
    List Task × RootIdx :=
  if strContains t.number '.' then
    let seg := firstSegment t.number
    let st1 :=
      match lookupIdx st.2 seg with
      | some _ => st
      | none =>
        (st.1 ++ [Task.mk seg (titleForGroup lines seg) false (some []) true],
         setIdx st.2 seg st.1.length)
    match lookupIdx st1.2 seg with
    | some i => (updateAt st1.1 i (pushSubtask t), st1.2)
    | none => st1
  else st

/-- `if (task.subtasks && task.subtasks.length > 0)
task.checked = task.subtasks.every(st => st.checked)`. -/
def deriveChecked : Task → Task
  | .mk n d _ (some (s :: ss)) v => .mk n d ((s :: ss).all Task.checked) (some (s :: ss)) v
  | t => t

/-- stable insertion sort: `before x y` holds when the JS comparator on
`(x, y)` is `<= 0`; a consistent comparator makes `Array.prototype.sort`
produce exactly this stable order. -/
def insertBy (before : α → α → Bool) (x : α) : List α → List α
  | [] => [x]
  | y :: ys => if before x y then x :: y :: ys else y :: insertBy before x ys

def sortBy (before : α → α → Bool) : List α → List α
  | [] => []
  | x :: xs => insertBy before x (sortBy before xs)

/-- `parseInt` on the dotted-digit strings that occur here: value of the
leading digit run (`0` standing in for the unreachable `NaN` of a digitless
string, which phase 2 never produces; the `|| 0` guards in the comparator
coerce those the same way). -/
def parseIntPrefix (s : String) : Nat :=
  (s.data.takeWhile Char.isDigit).foldl (fun a c => a * 10 + (c.toNat - 48)) 0

/-- root comparator `parseInt(a.number) - parseInt(b.number) <= 0`. -/
def rootBefore (a b : Task) : Bool :=
  parseIntPrefix a.number ≤ parseIntPrefix b.number

/-- `number.split(".").map(n => parseInt(n))`. -/
def numParts (s : String) : List Nat :=
  (splitDots s).map parseIntPrefix

/-- the subtask comparator loop: first index with a nonzero difference
decides (missing components read as 0); `<= 0` result.  With the left side
exhausted every remaining difference is `0 - y <= 0`, so the result is
`true`; with the right side exhausted the result is `true` exactly when the
remaining left components are all `0`. -/
def partsBefore : List Nat → List Nat → Bool
  | [], _ => true
  | xs, [] => xs.all (fun x => x == 0)
  | x :: xs, y :: ys => if x == y then partsBefore xs ys else decide (x < y)

def subBefore (a b : Task) : Bool :=
  partsBefore (numParts a.number) (numParts b.number)

/-- `if (task.subtasks) task.subtasks.sort(...)`. -/
def sortSubtasksOf : Task → Task
  | .mk n d c (some l) v => .mk n d c (some (sortBy subBefore l)) v
  | t => t

/-- `parseTasksFromContent`: scan, assemble (pass A then pass B), derive
parent checked flags, sort roots numerically, sort each root's subtasks. -/
def parseTasksFromContent (content : String) : List Task :=
  let lines := splitLines content
  let scanned := scanTasks lines
  let st := scanned.foldl passAStep ([], [])
  let st2 := scanned.foldl (passBStep lines) st
  (sortBy rootBefore (st2.1.map deriveChecked)).map sortSubtasksOf

/-- `getFirstUncompletedTask`: first root in order; with children, its first
unchecked child, else the root itself if unchecked; childless roots are
returned when unchecked. -/
def getFirstUncompletedTask : List Task → Option Task
  | [] => none
  | Task.mk n d c subs v :: rest =>
    match subs with
    | some (s :: ss) =>
      match (s :: ss).find? (fun st => !st.checked) with
      | some f => some f
      | none =>
        if !c then some (Task.mk n d c subs v) else getFirstUncompletedTask rest
    | _ =>
      if !c then some (Task.mk n d c subs v) else getFirstUncompletedTask rest

/-- fuelled worker for `findTaskByNumber` (one unit of fuel per visited node
or descent, so any fuel at least `forestWeight` of the forest is enough). -/
def findTaskByNumberF : Nat → List Task → String → Option Task
  | 0, _, _ => none
  | _ + 1, [], _ => none
  | fuel + 1, Task.mk n d c subs v :: ts, target =>
    if n == target then some (Task.mk n d c subs v)
    else
      match subs with
      | some l =>
        match findTaskByNumberF fuel l target with
        | some f => some f
        | none => findTaskByNumberF fuel ts target
      | none => findTaskByNumberF fuel ts target

/-- fuel bound for the depth-first search: generous for every forest whose
children carry no grandchildren, which (provably — see
`subtasksNone_of_mem_children_parse`) includes every forest this program
builds; the parser attaches subtasks only to top-level roots. -/
def forestWeight (ts : List Task) : Nat :=
  ts.foldl (fun a t => a + 2 + 2 * t.children.length) 1

/-- `findTaskByNumber`: first task (depth-first, children between a node and
its later siblings) whose number equals the target.  The JS recursion
terminates on every tree; the fuel merely realizes that termination and is
never exhausted on the forests this program produces. -/
def findTaskByNumber (tasks : List Task) (target : String) : Option Task :=
  findTaskByNumberF (forestWeight tasks) tasks target

/-- word-boundary test of `\b<pat>\b` against `l` for a pattern whose first
and last characters are word characters (task numbers begin and end with a
digit): some occurrence of the literal has a non-word character or the
string edge on both sides.  `prev` is the character before the current
position (`none` at the start). -/
def hasWordBoundedOccur (pat : List Char) (prev : Option Char) (l : List Char) : Bool :=
  ((match prev with | none => true | some c => !isWordChar c)
    && pat.isPrefixOf l
    && (match l.drop pat.length with | [] => true | c :: _ => !isWordChar c))
  ||
  (match l with
   | [] => false
   | c :: rest => hasWordBoundedOccur pat (some c) rest)

/-- `containsTaskNumber(line, taskNumber)`: checkboxes are removed globally,
then `new RegExp("\\b" + escapeRegExp(taskNumber) + "\\b")` is tested. -/
def containsTaskNumber (line : String) (taskNumber : String) : Bool :=
  hasWordBoundedOccur taskNumber.data none (removeAllCheckboxes line.data)

/-- `taskNumber.substring(0, taskNumber.lastIndexOf('.'))`
(`""` when there is no dot). -/
def lastDotPrefix (s : String) : String :=
  if strContains s '.' then
    ⟨((s.data.reverse.dropWhile (fun c => c != '.')).drop 1).reverse⟩
  else ""

/-- the `numbersToMark` set of `markTaskAsCompleted`: the task number itself,
plus its parent number (prefix before the last dot) when that parent is in
the tree with a `subtasks` array whose members other than the task are all
checked.  Set insertion order is kept (the id first). -/
def markNumbersFor (tasks : List Task) (taskNumber : String) : List String :=
  let parentNumber := lastDotPrefix taskNumber
  if !parentNumber.data.isEmpty && strContains taskNumber '.' then
    match findTaskByNumber tasks parentNumber with
    | some p =>
      match p.subtasks with
      | some subs =>
        if (subs.filter (fun s => s.number != taskNumber)).all Task.checked then
          [taskNumber, parentNumber]
        else [taskNumber]
      | none => [taskNumber]
    | none => [taskNumber]
  else [taskNumber]

/-- one line of the marking loop: a line containing `[ ]` whose cleaned text
word-boundary-matches one of the numbers gets its first `[ ]` replaced by
`[x]`. -/
def flipLine (nums : List String) (line : String) : String :=
  if containsUnchecked line.data && nums.any (fun n => containsTaskNumber line n) then
    ⟨replaceFirstUnchecked line.data⟩
  else line

/-- `markTaskAsCompleted(content, taskNumber)`: `null` when the task is not
in the parse tree or no line was flipped; otherwise the lines rejoined after
flipping every line that contains `[ ]` and matches a number to mark (each
loop iteration touches only its own line, so the loop is a map plus an
existence check). -/
def markTaskAsCompleted (content : String) (taskNumber : String) : Option String :=
  let lines := splitLines content
  let tasks := parseTasksFromContent content
  match findTaskByNumber tasks taskNumber with
  | none => none
  | some _ =>
    let nums := markNumbersFor tasks taskNumber
    let found := lines.any (fun l =>
      containsUnchecked l.data && nums.any (fun n => containsTaskNumber l n))
    if found then some (String.intercalate "\n" (lines.map (flipLine nums))) else none

/-- `targetTask.subtasks && targetTask.subtasks.some(s => !s.checked)`. -/
def hasUncheckedChild (t : Task) : Bool :=
  match t.subtasks with
  | some subs => subs.any (fun s => !s.checked)
  | none => false

structure FailedTask where
  taskNumber : String
  reason : String

/-- the fields of `BatchCompleteTaskResponse` relevant to the mutation
contract, plus `wrote` (whether `writeFileSync` ran) and `updatedText` (the
tasks-file content after the call — the original content unless written).
`displayText` and the per-task `results` array are presentation only and
not modelled.  Branches of the source that leave `hasNextTask` undefined
are modelled as `false`. -/
structure BatchResult where
  success : Bool
  completedTasks : List String
  alreadyCompleted : List String
  failedTasks : List FailedTask
  hasNextTask : Bool
  updatedText : String
  wrote : Bool

/-- the categorization loop of `completeBatchTasks`, accumulating
`(alreadyCompleted, canBeCompleted, cannotBeCompleted)` in input order. -/
def categorizeStep (tasks : List Task)
    (acc : List String × List String × List FailedTask) (n : String) :
    List String × List String × List FailedTask :=
  match findTaskByNumber tasks n with
  | none => (acc.1, acc.2.1, acc.2.2 ++ [⟨n, "Task does not exist"⟩])
  | some t =>
    if t.checked then (acc.1 ++ [n], acc.2.1, acc.2.2)
    else if hasUncheckedChild t then
      (acc.1, acc.2.1, acc.2.2 ++ [⟨n, "Has uncompleted subtasks"⟩])
    else (acc.1, acc.2.1 ++ [n], acc.2.2)

def categorizeOf (tasks : List Task) (taskNumbers : List String) :
    List String × List String × List FailedTask :=
  taskNumbers.foldl (categorizeStep tasks) ([], [], [])

/-- `a.split('.').length`. -/
def taskDepth (s : String) : Nat :=
  (splitDots s).length

/-- code-point lexicographic `<=` on char lists. -/
def charsLe : List Char → List Char → Bool
  | [], _ => true
  | _ :: _, [] => false
  | a :: as, b :: bs => if a == b then charsLe as bs else decide (a < b)

/-- `a.localeCompare(b) <= 0`: on the dotted ASCII digit strings compared
here the root-locale collation coincides with code-point lexicographic
order. -/
def localeLe (a b : String) : Bool :=
  charsLe a.data b.data

/-- the batch execution comparator, `<= 0` side: deeper numbers first, ties
by `localeCompare`. -/
def numBefore (a b : String) : Bool :=
  if taskDepth a == taskDepth b then localeLe a b
  else decide (taskDepth b < taskDepth a)

def sortTaskNumbers (l : List String) : List String :=
  sortBy numBefore l

/-- the execution loop: mark each number in order, threading the updated
content; a `null` from `markTaskAsCompleted` throws, which aborts the loop
(`Except.error` carries the thrown message). -/
def runCompletions : String → List String → Except String (String × List String)
  | content, [] => .ok (content, [])
  | content, n :: ns =>
    match markTaskAsCompleted content n with
    | none => .error ("Unexpected error: Task " ++ n ++ " could not be marked")
    | some c2 =>
      match runCompletions c2 ns with
      | .ok (fin, done) => .ok (fin, n :: done)
      | .error e => .error e

/-- `completeBatchTasks(path, tasksPath, taskNumbers)` as a pure function of
the tasks-file content: categorize against the current parse, reject the
whole batch on any `cannotBeCompleted`, report already-completed-only
batches as a successful no-op, otherwise execute in sorted order, writing
only on success with at least one completion and rolling back to the
original content when the loop throws. -/
def completeBatchTasks (originalContent : String) (taskNumbers : List String) :
    BatchResult :=
  let tasks := parseTasksFromContent originalContent
  let cat := categorizeOf tasks taskNumbers
  let alreadyCompleted := cat.1
  let canBeCompleted := cat.2.1
  let cannotBeCompleted := cat.2.2
  if !cannotBeCompleted.isEmpty then
    { success := false, completedTasks := [], alreadyCompleted := [],
      failedTasks := cannotBeCompleted, hasNextTask := false,
      updatedText := originalContent, wrote := false }
  else if canBeCompleted.isEmpty && !alreadyCompleted.isEmpty then
    { success := true, completedTasks := [], alreadyCompleted := alreadyCompleted,
      failedTasks := [],
      hasNextTask := (getFirstUncompletedTask (parseTasksFromContent originalContent)).isSome,
      updatedText := originalContent, wrote := false }
  else
    match runCompletions originalContent (sortTaskNumbers canBeCompleted) with
    | .ok (finalContent, done) =>
      { success := true, completedTasks := done, alreadyCompleted := alreadyCompleted,
        failedTasks := [],
        hasNextTask := (getFirstUncompletedTask (parseTasksFromContent finalContent)).isSome,
        updatedText := finalContent, wrote := !done.isEmpty }
    | .error msg =>
      { success := false, completedTasks := [], alreadyCompleted := [],
        failedTasks := [⟨"batch", msg⟩], hasNextTask := false,
        updatedText := originalContent, wrote := false }

/-- the three `throw new Error(...)` sites of the single-task path
(the thrown values are display strings built by `responseBuilder`; only
the site identity matters here). -/
inductive ThrowKind where
  | taskNotFound
  | hasUncompletedSubtasks
  | markFailed

/-- the fields of the single-task result relevant to the mutation
contract. -/
structure SingleResult where
  taskCompleted : String
  updatedText : String
  wrote : Bool

/-- `completeSingleTask(path, tasksPath, taskNumber)` as a pure function of
the content: not-found and blocked-by-children throw (`Except.error`);
already-completed is an idempotent success without a write; otherwise the
task is marked and the file written, a `null` mark throwing as well.
(`checkTaskCanBeCompleted` reparses the same content, which yields the same
tree, so its check is inlined.) -/
def completeSingleTask (content : String) (taskNumber : String) :
    Except ThrowKind SingleResult :=
  let tasks := parseTasksFromContent content
  match findTaskByNumber tasks taskNumber with
  | none => .error .taskNotFound
  | some t =>
    if t.checked then
      .ok { taskCompleted := taskNumber, updatedText := content, wrote := false }
    else if hasUncheckedChild t then
      .error .hasUncompletedSubtasks
    else
      match markTaskAsCompleted content taskNumber with
      | none => .error .markFailed
      | some updated =>
        .ok { taskCompleted := taskNumber, updatedText := updated, wrote := true }

/-! ## Helper lemmas -/

/-- soundness of the word-boundary search: a positive answer exhibits an
occurrence of the pattern whose adjacent characters (where present) are
non-word characters; with an empty prefix, the character preceding the
searched window (if any) is a non-word character. -/
theorem hasWordBoundedOccur_decomp (pat : List Char) :
    ∀ (prev : Option Char) (l : List Char),
      hasWordBoundedOccur pat prev l = true →
      ∃ pre post, l = pre ++ pat ++ post ∧
        (pre = [] → prev = none ∨ ∃ c, prev = some c ∧ isWordChar c = false) ∧
        (∀ c, pre.getLast? = some c → isWordChar c = false) ∧
        (∀ c, post.head? = some c → isWordChar c = false) := by
  intro prev l
  induction l generalizing prev with
  | nil =>
    intro h
    simp only [hasWordBoundedOccur, Bool.or_false, Bool.and_eq_true] at h
    obtain ⟨⟨hprev, hpre⟩, hafter⟩ := h
    have hp : pat = [] := by
      cases pat with
      | nil => rfl
      | cons a t => simp [List.isPrefixOf] at hpre
    refine ⟨[], [], by simp [hp], ?_, by simp, by simp⟩
    intro _
    cases prev with
    | none => exact Or.inl rfl
    | some c =>
      refine Or.inr ⟨c, rfl, ?_⟩
      simpa using hprev
  | cons c rest ih =>
    intro h
    simp only [hasWordBoundedOccur, Bool.or_eq_true, Bool.and_eq_true] at h
    rcases h with ⟨⟨hprev, hpre⟩, hafter⟩ | hrec
    · obtain ⟨t, ht⟩ := List.isPrefixOf_iff_prefix.mp hpre
      refine ⟨[], t, by simp [← ht], ?_, by simp, ?_⟩
      · intro _
        cases prev with
        | none => exact Or.inl rfl
        | some c0 =>
          refine Or.inr ⟨c0, rfl, ?_⟩
          simpa using hprev
      · intro d hd
        rw [← ht, List.drop_left] at hafter
        cases t with
        | nil => simp at hd
        | cons d0 t0 =>
          simp only [List.head?_cons, Option.some.injEq] at hd
          subst hd
          simpa using hafter
    · obtain ⟨pre, post, heq, hpre0, hlast, hhead⟩ := ih (some c) hrec
      refine ⟨c :: pre, post, by simp [heq], ?_, ?_, hhead⟩
      · intro habs
        exact absurd habs (List.cons_ne_nil c pre)
      · intro d hd
        cases pre with
        | nil =>
          simp only [List.getLast?_singleton, Option.some.injEq] at hd
          subst hd
          rcases hpre0 rfl with h0 | ⟨c0, hc0, hw⟩
          · exact absurd h0 (by simp)
          · cases Option.some.inj hc0
            exact hw
        | cons a t =>
          rw [List.getLast?_cons_cons] at hd
          exact hlast d hd

/-- an id the categorization classifies `alreadyCompleted`. -/
def checkedIn (tasks : List Task) (n : String) : Bool :=
  match findTaskByNumber tasks n with
  | some t => t.checked
  | none => false

/-- an id the categorization classifies `canBeCompleted`. -/
def eligibleIn (tasks : List Task) (n : String) : Bool :=
  match findTaskByNumber tasks n with
  | some t => !t.checked && !hasUncheckedChild t
  | none => false

/-- an id the categorization classifies `cannotBeCompleted`. -/
def rejectedIn (tasks : List Task) (n : String) : Bool :=
  match findTaskByNumber tasks n with
  | some t => !t.checked && hasUncheckedChild t
  | none => true

/-- the rejection reason attached by the categorization. -/
def reasonIn (tasks : List Task) (n : String) : String :=
  match findTaskByNumber tasks n with
  | some _ => "Has uncompleted subtasks"
  | none => "Task does not exist"

/-- the categorization loop is the triple of filters of the input list. -/
theorem categorizeOf_eq (tasks : List Task) (S : List String) :
    categorizeOf tasks S =
      (S.filter (checkedIn tasks), S.filter (eligibleIn tasks),
       (S.filter (rejectedIn tasks)).map (fun n => FailedTask.mk n (reasonIn tasks n))) := by
  suffices h : ∀ acc : List String × List String × List FailedTask,
      S.foldl (categorizeStep tasks) acc =
        (acc.1 ++ S.filter (checkedIn tasks), acc.2.1 ++ S.filter (eligibleIn tasks),
         acc.2.2 ++ (S.filter (rejectedIn tasks)).map
           (fun n => FailedTask.mk n (reasonIn tasks n))) by
    simpa [categorizeOf] using h ([], [], [])
  induction S with
  | nil => intro acc; simp
  | cons n S ih =>
    intro acc
    simp only [List.foldl_cons]
    rw [ih]
    cases hf : findTaskByNumber tasks n with
    | none =>
      have hch : checkedIn tasks n = false := by simp [checkedIn, hf]
      have hel : eligibleIn tasks n = false := by simp [eligibleIn, hf]
      have hr : rejectedIn tasks n = true := by simp [rejectedIn, hf]
      have hre : reasonIn tasks n = "Task does not exist" := by simp [reasonIn, hf]
      simp [categorizeStep, hf, List.filter_cons, hch, hel, hr, hre]
    | some t =>
      cases hc : t.checked with
      | true =>
        have hch : checkedIn tasks n = true := by simp [checkedIn, hf, hc]
        have hel : eligibleIn tasks n = false := by simp [eligibleIn, hf, hc]
        have hr : rejectedIn tasks n = false := by simp [rejectedIn, hf, hc]
        simp [categorizeStep, hf, hc, List.filter_cons, hch, hel, hr]
      | false =>
        cases hu : hasUncheckedChild t with
        | true =>
          have hch : checkedIn tasks n = false := by simp [checkedIn, hf, hc]
          have hel : eligibleIn tasks n = false := by simp [eligibleIn, hf, hc, hu]
          have hr : rejectedIn tasks n = true := by simp [rejectedIn, hf, hc, hu]
          have hre : reasonIn tasks n = "Has uncompleted subtasks" := by
            simp [reasonIn, hf]
          simp [categorizeStep, hf, hc, hu, List.filter_cons, hch, hel, hr, hre]
        | false =>
          have hch : checkedIn tasks n = false := by simp [checkedIn, hf, hc]
          have hel : eligibleIn tasks n = true := by simp [eligibleIn, hf, hc, hu]
          have hr : rejectedIn tasks n = false := by simp [rejectedIn, hf, hc, hu]
          simp [categorizeStep, hf, hc, hu, List.filter_cons, hch, hel, hr]

/-- shape of the batch result when some id is rejected. -/
theorem cbt_reject (D : String) (S : List String)
    (h : (categorizeOf (parseTasksFromContent D) S).2.2 ≠ []) :
    completeBatchTasks D S =
      { success := false, completedTasks := [], alreadyCompleted := [],
        failedTasks := (categorizeOf (parseTasksFromContent D) S).2.2,
        hasNextTask := false, updatedText := D, wrote := false } := by
  unfold completeBatchTasks
  have hE : (categorizeOf (parseTasksFromContent D) S).2.2.isEmpty = false := by
    cases hL : (categorizeOf (parseTasksFromContent D) S).2.2 with
    | nil => exact absurd hL h
    | cons a t => rfl
  simp [hE]

/-- shape of the batch result when nothing is eligible but something was
already completed. -/
theorem cbt_already (D : String) (S : List String)
    (h1 : (categorizeOf (parseTasksFromContent D) S).2.2 = [])
    (h2 : (categorizeOf (parseTasksFromContent D) S).2.1 = [])
    (h3 : (categorizeOf (parseTasksFromContent D) S).1 ≠ []) :
    completeBatchTasks D S =
      { success := true, completedTasks := [],
        alreadyCompleted := (categorizeOf (parseTasksFromContent D) S).1,
        failedTasks := [],
        hasNextTask := (getFirstUncompletedTask (parseTasksFromContent D)).isSome,
        updatedText := D, wrote := false } := by
  unfold completeBatchTasks
  have hE3 : (categorizeOf (parseTasksFromContent D) S).1.isEmpty = false := by
    cases hL : (categorizeOf (parseTasksFromContent D) S).1 with
    | nil => exact absurd hL h3
    | cons a t => rfl
  simp [h1, h2, hE3]

/-- shape of the batch result on a successful execution pass. -/
theorem cbt_exec_ok (D : String) (S : List String) (fin : String) (done : List String)
    (h1 : (categorizeOf (parseTasksFromContent D) S).2.2 = [])
    (h2 : ((categorizeOf (parseTasksFromContent D) S).2.1.isEmpty &&
           !(categorizeOf (parseTasksFromContent D) S).1.isEmpty) = false)
    (h3 : runCompletions D (sortTaskNumbers (categorizeOf (parseTasksFromContent D) S).2.1)
          = .ok (fin, done)) :
    completeBatchTasks D S =
      { success := true, completedTasks := done,
        alreadyCompleted := (categorizeOf (parseTasksFromContent D) S).1,
        failedTasks := [],
        hasNextTask := (getFirstUncompletedTask (parseTasksFromContent fin)).isSome,
        updatedText := fin, wrote := !done.isEmpty } := by
  unfold completeBatchTasks
  simp [h1, h2, h3]

/-- shape of the batch result when the execution pass throws. -/
theorem cbt_exec_err (D : String) (S : List String) (msg : String)
    (h1 : (categorizeOf (parseTasksFromContent D) S).2.2 = [])
    (h2 : ((categorizeOf (parseTasksFromContent D) S).2.1.isEmpty &&
           !(categorizeOf (parseTasksFromContent D) S).1.isEmpty) = false)
    (h3 : runCompletions D (sortTaskNumbers (categorizeOf (parseTasksFromContent D) S).2.1)
          = .error msg) :
    completeBatchTasks D S =
      { success := false, completedTasks := [], alreadyCompleted := [],
        failedTasks := [⟨"batch", msg⟩], hasNextTask := false,
        updatedText := D, wrote := false } := by
  unfold completeBatchTasks
  simp [h1, h2, h3]

theorem charsLe_total (x y : List Char) : charsLe x y = true ∨ charsLe y x = true := by
  induction x generalizing y with
  | nil => exact Or.inl rfl
  | cons a as ih =>
    cases y with
    | nil => exact Or.inr rfl
    | cons b bs =>
      by_cases h : a = b
      · subst h
        simp only [charsLe, beq_self_eq_true, if_true]
        exact ih bs
      · rcases lt_trichotomy a b with h1 | h1 | h1
        · left; simp [charsLe, h, h1]
        · exact absurd h1 h
        · right; simp [charsLe, Ne.symm h, h1]

theorem charsLe_trans {x y z : List Char} (h1 : charsLe x y = true)
    (h2 : charsLe y z = true) : charsLe x z = true := by
  induction x generalizing y z with
  | nil => rfl
  | cons a as ih =>
    cases y with
    | nil => simp [charsLe] at h1
    | cons b bs =>
      cases z with
      | nil => simp [charsLe] at h2
      | cons c cs =>
        by_cases hab : a = b
        · subst hab
          simp only [charsLe, beq_self_eq_true, if_true] at h1
          by_cases hac : a = c
          · subst hac
            simp only [charsLe, beq_self_eq_true, if_true] at h2 ⊢
            exact ih h1 h2
          · simp only [charsLe] at h2 ⊢
            simp [hac] at h2 ⊢
            exact h2
        · simp only [charsLe] at h1
          simp [hab] at h1
          by_cases hbc : b = c
          · subst hbc
            simp only [charsLe]
            simp [hab]
            exact h1
          · simp only [charsLe] at h2
            simp [hbc] at h2
            have hac2 : a < c := lt_trans h1 h2
            simp only [charsLe]
            simp [ne_of_lt hac2]
            exact hac2

theorem charsLe_antisymm {x y : List Char} (h1 : charsLe x y = true)
    (h2 : charsLe y x = true) : x = y := by
  induction x generalizing y with
  | nil =>
    cases y with
    | nil => rfl
    | cons b bs => simp [charsLe] at h2
  | cons a as ih =>
    cases y with
    | nil => simp [charsLe] at h1
    | cons b bs =>
      by_cases hab : a = b
      · subst hab
        simp only [charsLe, beq_self_eq_true, if_true] at h1 h2
        rw [ih h1 h2]
      · simp only [charsLe] at h1 h2
        simp [hab] at h1
        simp [Ne.symm hab] at h2
        exact absurd (lt_trans h1 h2) (lt_irrefl a)

/-- characterization of the execution comparator. -/
theorem numBefore_eq (a b : String) :
    numBefore a b = true ↔
      taskDepth b < taskDepth a ∨
      (taskDepth a = taskDepth b ∧ charsLe a.data b.data = true) := by
  unfold numBefore localeLe
  by_cases h : taskDepth a = taskDepth b
  · simp [h]
  · have h2 : taskDepth b ≠ taskDepth a := Ne.symm h
    simp [h]

theorem numBefore_total (a b : String) : numBefore a b = true ∨ numBefore b a = true := by
  rw [numBefore_eq, numBefore_eq]
  by_cases h : taskDepth a = taskDepth b
  · rcases charsLe_total a.data b.data with hc | hc
    · exact Or.inl (Or.inr ⟨h, hc⟩)
    · exact Or.inr (Or.inr ⟨h.symm, hc⟩)
  · by_cases h2 : taskDepth b < taskDepth a
    · exact Or.inl (Or.inl h2)
    · exact Or.inr (Or.inl (by omega))

theorem numBefore_trans {a b c : String} (h1 : numBefore a b = true)
    (h2 : numBefore b c = true) : numBefore a c = true := by
  rw [numBefore_eq] at h1 h2 ⊢
  rcases h1 with h1 | ⟨h1e, h1s⟩
  · rcases h2 with h2 | ⟨h2e, _⟩
    · exact Or.inl (by omega)
    · exact Or.inl (by omega)
  · rcases h2 with h2 | ⟨h2e, h2s⟩
    · exact Or.inl (by omega)
    · exact Or.inr ⟨by omega, charsLe_trans h1s h2s⟩

theorem dataEqString {a b : String} (h : a.data = b.data) : a = b := by
  cases a with
  | mk da =>
    cases b with
    | mk db =>
      have hd : da = db := by simpa using h
      rw [hd]

theorem numBefore_antisymm {a b : String} (h1 : numBefore a b = true)
    (h2 : numBefore b a = true) : a = b := by
  rw [numBefore_eq] at h1 h2
  rcases h1 with h1 | ⟨h1e, h1s⟩
  · rcases h2 with h2 | ⟨h2e, _⟩
    · omega
    · omega
  · rcases h2 with h2 | ⟨h2e, h2s⟩
    · omega
    · exact dataEqString (charsLe_antisymm h1s h2s)

theorem insertBy_eq_orderedInsert (before : α → α → Bool) (x : α) (l : List α) :
    insertBy before x l = List.orderedInsert (fun a b => before a b = true) x l := by
  induction l with
  | nil => rfl
  | cons y ys ih =>
    simp only [insertBy, List.orderedInsert]
    by_cases h : before x y = true
    · rw [if_pos h, if_pos h]
    · rw [if_neg h, if_neg h, ih]

theorem sortBy_eq_insertionSort (before : α → α → Bool) (l : List α) :
    sortBy before l = List.insertionSort (fun a b => before a b = true) l := by
  induction l with
  | nil => rfl
  | cons x xs ih =>
    simp only [sortBy, List.insertionSort, ih]
    exact insertBy_eq_orderedInsert before x _

theorem sortTaskNumbers_sorted (l : List String) :
    List.Sorted (fun a b => numBefore a b = true) (sortTaskNumbers l) := by
  haveI : IsTotal String (fun a b => numBefore a b = true) := ⟨numBefore_total⟩
  haveI : IsTrans String (fun a b => numBefore a b = true) :=
    ⟨fun _ _ _ => numBefore_trans⟩
  rw [sortTaskNumbers, sortBy_eq_insertionSort]
  exact List.sorted_insertionSort _ l

theorem sortTaskNumbers_perm (l : List String) : (sortTaskNumbers l).Perm l := by
  rw [sortTaskNumbers, sortBy_eq_insertionSort]
  exact List.perm_insertionSort _ l

theorem sortTaskNumbers_congr_perm {l1 l2 : List String} (h : l1.Perm l2) :
    sortTaskNumbers l1 = sortTaskNumbers l2 := by
  haveI : IsAntisymm String (fun a b => numBefore a b = true) :=
    ⟨fun _ _ => numBefore_antisymm⟩
  exact List.eq_of_perm_of_sorted
    ((sortTaskNumbers_perm l1).trans (h.trans (sortTaskNumbers_perm l2).symm))
    (sortTaskNumbers_sorted l1) (sortTaskNumbers_sorted l2)

/-- a successful execution pass returns exactly the list it was given. -/
theorem runCompletions_ok :
    ∀ {c : String} {l : List String} {fin : String} {done : List String},
      runCompletions c l = .ok (fin, done) → done = l := by
  intro c l
  induction l generalizing c with
  | nil =>
    intro fin done h
    simp only [runCompletions, Except.ok.injEq, Prod.mk.injEq] at h
    exact h.2.symm
  | cons n ns ih =>
    intro fin done h
    simp only [runCompletions] at h
    cases hm : markTaskAsCompleted c n with
    | none => simp [hm] at h
    | some c2 =>
      simp only [hm] at h
      cases hr : runCompletions c2 ns with
      | ok pr =>
        obtain ⟨fin2, done2⟩ := pr
        simp only [hr, Except.ok.injEq, Prod.mk.injEq] at h
        exact h.2.symm.trans (by rw [ih hr])
      | error e => simp [hr] at h

/-- on success, `completedTasks` is the sorted list of eligible input ids. -/
theorem cbt_success_completed (D : String) (S : List String)
    (h : (completeBatchTasks D S).success = true) :
    (completeBatchTasks D S).completedTasks
      = sortTaskNumbers (S.filter (eligibleIn (parseTasksFromContent D))) := by
  have hcat := categorizeOf_eq (parseTasksFromContent D) S
  have hcan : (categorizeOf (parseTasksFromContent D) S).2.1
      = S.filter (eligibleIn (parseTasksFromContent D)) := by rw [hcat]
  by_cases hrej : (categorizeOf (parseTasksFromContent D) S).2.2 = []
  · by_cases hb : ((categorizeOf (parseTasksFromContent D) S).2.1.isEmpty &&
        !(categorizeOf (parseTasksFromContent D) S).1.isEmpty) = true
    · have hb2 := hb
      simp only [Bool.and_eq_true] at hb2
      have hcannil : (categorizeOf (parseTasksFromContent D) S).2.1 = [] :=
        List.isEmpty_iff.mp hb2.1
      have halr : (categorizeOf (parseTasksFromContent D) S).1 ≠ [] := by
        intro hx
        have := hb2.2
        rw [hx] at this
        simp at this
      rw [cbt_already D S hrej hcannil halr]
      rw [← hcan, hcannil]
      rfl
    · have hb2 : ((categorizeOf (parseTasksFromContent D) S).2.1.isEmpty &&
          !(categorizeOf (parseTasksFromContent D) S).1.isEmpty) = false := by
        revert hb
        cases ((categorizeOf (parseTasksFromContent D) S).2.1.isEmpty &&
          !(categorizeOf (parseTasksFromContent D) S).1.isEmpty)
        · intro _; rfl
        · intro hx; exact absurd rfl hx
      cases hr : runCompletions D
          (sortTaskNumbers (categorizeOf (parseTasksFromContent D) S).2.1) with
      | ok pr =>
        obtain ⟨fin, done⟩ := pr
        rw [cbt_exec_ok D S fin done hrej hb2 hr]
        rw [runCompletions_ok hr, hcan]
      | error msg =>
        rw [cbt_exec_err D S msg hrej hb2 hr] at h
        simp at h
  · rw [cbt_reject D S hrej] at h
    simp at h

/-- the mutation outcome of a batch is independent of the order of the
input id list: permuted inputs give the same success flag, the same
completed list, and the same updated text. -/
theorem cbt_perm_invariant (D : String) (S T : List String) (hperm : S.Perm T) :
    (completeBatchTasks D S).success = (completeBatchTasks D T).success ∧
    (completeBatchTasks D S).completedTasks = (completeBatchTasks D T).completedTasks ∧
    (completeBatchTasks D S).updatedText = (completeBatchTasks D T).updatedText := by
  have hcatS := categorizeOf_eq (parseTasksFromContent D) S
  have hcatT := categorizeOf_eq (parseTasksFromContent D) T
  have hrejperm := hperm.filter (rejectedIn (parseTasksFromContent D))
  have haleperm := hperm.filter (eligibleIn (parseTasksFromContent D))
  have hchkperm := hperm.filter (checkedIn (parseTasksFromContent D))
  by_cases hrej : S.filter (rejectedIn (parseTasksFromContent D)) = []
  · have hrejT : T.filter (rejectedIn (parseTasksFromContent D)) = [] :=
      (hrej ▸ hrejperm).symm.eq_nil
    have hrejS2 : (categorizeOf (parseTasksFromContent D) S).2.2 = [] := by
      rw [hcatS]; simp [hrej]
    have hrejT2 : (categorizeOf (parseTasksFromContent D) T).2.2 = [] := by
      rw [hcatT]; simp [hrejT]
    have hsortEq : sortTaskNumbers (categorizeOf (parseTasksFromContent D) S).2.1
        = sortTaskNumbers (categorizeOf (parseTasksFromContent D) T).2.1 := by
      rw [hcatS, hcatT]
      exact sortTaskNumbers_congr_perm haleperm
    by_cases hcan : S.filter (eligibleIn (parseTasksFromContent D)) = []
    · have hcanT : T.filter (eligibleIn (parseTasksFromContent D)) = [] :=
        (hcan ▸ haleperm).symm.eq_nil
      have hcanS2 : (categorizeOf (parseTasksFromContent D) S).2.1 = [] := by
        rw [hcatS]; simp [hcan]
      have hcanT2 : (categorizeOf (parseTasksFromContent D) T).2.1 = [] := by
        rw [hcatT]; simp [hcanT]
      by_cases halr : S.filter (checkedIn (parseTasksFromContent D)) = []
      · have halrT : T.filter (checkedIn (parseTasksFromContent D)) = [] :=
          (halr ▸ hchkperm).symm.eq_nil
        have hbS : ((categorizeOf (parseTasksFromContent D) S).2.1.isEmpty &&
            !(categorizeOf (parseTasksFromContent D) S).1.isEmpty) = false := by
          rw [hcatS]; simp [halr]
        have hbT : ((categorizeOf (parseTasksFromContent D) T).2.1.isEmpty &&
            !(categorizeOf (parseTasksFromContent D) T).1.isEmpty) = false := by
          rw [hcatT]; simp [halrT]
        have hrS : runCompletions D
            (sortTaskNumbers (categorizeOf (parseTasksFromContent D) S).2.1)
            = .ok (D, []) := by
          rw [hcanS2]; rfl
        have hrT : runCompletions D
            (sortTaskNumbers (categorizeOf (parseTasksFromContent D) T).2.1)
            = .ok (D, []) := by
          rw [hcanT2]; rfl
        rw [cbt_exec_ok D S D [] hrejS2 hbS hrS, cbt_exec_ok D T D [] hrejT2 hbT hrT]
        exact ⟨rfl, rfl, rfl⟩
      · have halrT : T.filter (checkedIn (parseTasksFromContent D)) ≠ [] := by
          intro hx
          exact halr ((hx ▸ hchkperm.symm).symm.eq_nil)
        have halrS1 : (categorizeOf (parseTasksFromContent D) S).1 ≠ [] := by
          rw [hcatS]; exact halr
        have halrT1 : (categorizeOf (parseTasksFromContent D) T).1 ≠ [] := by
          rw [hcatT]; exact halrT
        rw [cbt_already D S hrejS2 hcanS2 halrS1, cbt_already D T hrejT2 hcanT2 halrT1]
        exact ⟨rfl, rfl, rfl⟩
    · have hcanT : T.filter (eligibleIn (parseTasksFromContent D)) ≠ [] := by
        intro hx
        exact hcan ((hx ▸ haleperm.symm).symm.eq_nil)
      have hbS : ((categorizeOf (parseTasksFromContent D) S).2.1.isEmpty &&
          !(categorizeOf (parseTasksFromContent D) S).1.isEmpty) = false := by
        rw [hcatS]
        simp only []
        cases hL : S.filter (eligibleIn (parseTasksFromContent D)) with
        | nil => exact absurd hL hcan
        | cons a t => simp
      have hbT : ((categorizeOf (parseTasksFromContent D) T).2.1.isEmpty &&
          !(categorizeOf (parseTasksFromContent D) T).1.isEmpty) = false := by
        rw [hcatT]
        simp only []
        cases hL : T.filter (eligibleIn (parseTasksFromContent D)) with
        | nil => exact absurd hL hcanT
        | cons a t => simp
      cases hr : runCompletions D
          (sortTaskNumbers (categorizeOf (parseTasksFromContent D) S).2.1) with
      | ok pr =>
        obtain ⟨fin, done⟩ := pr
        have hrT : runCompletions D
            (sortTaskNumbers (categorizeOf (parseTasksFromContent D) T).2.1)
            = .ok (fin, done) := by rw [← hsortEq]; exact hr
        rw [cbt_exec_ok D S fin done hrejS2 hbS hr, cbt_exec_ok D T fin done hrejT2 hbT hrT]
        exact ⟨rfl, rfl, rfl⟩
      | error msg =>
        have hrT : runCompletions D
            (sortTaskNumbers (categorizeOf (parseTasksFromContent D) T).2.1)
            = .error msg := by rw [← hsortEq]; exact hr
        rw [cbt_exec_err D S msg hrejS2 hbS hr, cbt_exec_err D T msg hrejT2 hbT hrT]
        exact ⟨rfl, rfl, rfl⟩
  · have hrejT : T.filter (rejectedIn (parseTasksFromContent D)) ≠ [] := by
      intro hx
      exact hrej ((hx ▸ hrejperm.symm).symm.eq_nil)
    have hrejS2 : (categorizeOf (parseTasksFromContent D) S).2.2 ≠ [] := by
      rw [hcatS]
      simp only [ne_eq, List.map_eq_nil_iff]
      exact hrej
    have hrejT2 : (categorizeOf (parseTasksFromContent D) T).2.2 ≠ [] := by
      rw [hcatT]
      simp only [ne_eq, List.map_eq_nil_iff]
      exact hrejT
    rw [cbt_reject D S hrejS2, cbt_reject D T hrejT2]
    exact ⟨rfl, rfl, rfl⟩

/-! ## Parser pipeline invariants -/

/-- every scanned task has no `subtasks` field and is not virtual: phase 1
builds nodes only from literal checkbox lines. -/
theorem scanTasks_shape (lines : List String) :
    ∀ t ∈ scanTasks lines, t.subtasks = none ∧ t.isVirtual = false := by
  induction lines using scanTasks.induct with
  | case1 => intro t ht; simp [scanTasks] at ht
  | case2 line rest hcb ih =>
    intro t ht
    rw [scanTasks, hcb] at ht
    exact ih t ht
  | case3 line rest cb hcb hm ih =>
    intro t ht
    rw [scanTasks, hcb] at ht
    simp only [hm] at ht
    exact ih t ht
  | case4 line cb hcb numChars hm d0 hd0 =>
    intro t ht
    rw [scanTasks, hcb] at ht
    simp only [hm] at ht
    rw [if_pos hd0] at ht
    simp at ht
  | case5 line cb hcb numChars hm d0 hd0 line1 rest nl hnl ih =>
    intro t ht
    rw [scanTasks, hcb] at ht
    simp only [hm] at ht
    rw [if_pos hd0, if_pos hnl] at ht
    rcases List.mem_cons.mp ht with h | h
    · subst h; exact ⟨rfl, rfl⟩
    · exact ih t h
  | case6 line cb hcb numChars hm d0 hd0 line1 rest nl hnl ih =>
    intro t ht
    rw [scanTasks, hcb] at ht
    simp only [hm] at ht
    rw [if_pos hd0, if_neg hnl] at ht
    exact ih t ht
  | case7 line rest cb hcb numChars hm d0 hd0 ih =>
    intro t ht
    rw [scanTasks, hcb] at ht
    simp only [hm] at ht
    rw [if_neg hd0] at ht
    rcases List.mem_cons.mp ht with h | h
    · subst h; exact ⟨rfl, rfl⟩
    · exact ih t h

theorem mem_updateAt {l : List Task} {i : Nat} {f : Task → Task} {r : Task}
    (h : r ∈ updateAt l i f) : r ∈ l ∨ ∃ r0, r0 ∈ l ∧ r = f r0 := by
  induction l generalizing i with
  | nil => simp [updateAt] at h
  | cons x xs ih =>
    cases i with
    | zero =>
      simp only [updateAt] at h
      rcases List.mem_cons.mp h with h | h
      · exact Or.inr ⟨x, List.mem_cons_self x xs, h⟩
      · exact Or.inl (List.mem_cons_of_mem x h)
    | succ n =>
      simp only [updateAt] at h
      rcases List.mem_cons.mp h with h | h
      · exact Or.inl (h ▸ List.mem_cons_self x xs)
      · rcases ih h with h2 | ⟨r0, hr0, hfr⟩
        · exact Or.inl (List.mem_cons_of_mem x h2)
        · exact Or.inr ⟨r0, List.mem_cons_of_mem x hr0, hfr⟩

theorem updateAt_append_length (l : List Task) (x : Task) (f : Task → Task) :
    updateAt (l ++ [x]) l.length f = l ++ [f x] := by
  induction l with
  | nil => rfl
  | cons y ys ih =>
    simp only [List.cons_append, updateAt, List.length_cons]
    exact congrArg (fun z => y :: z) ih

theorem sortBy_perm_any (before : α → α → Bool) (l : List α) :
    (sortBy before l).Perm l := by
  rw [sortBy_eq_insertionSort]
  exact List.perm_insertionSort _ l

theorem all_of_perm {l1 l2 : List α} (h : l1.Perm l2) (p : α → Bool) :
    l1.all p = l2.all p := by
  by_cases h1 : l1.all p = true
  · have h2 : l2.all p = true :=
      List.all_eq_true.mpr (fun a ha => List.all_eq_true.mp h1 a (h.mem_iff.mpr ha))
    rw [h1, h2]
  · have h2 : ¬l2.all p = true := fun hx =>
      h1 (List.all_eq_true.mpr (fun a ha => List.all_eq_true.mp hx a (h.mem_iff.mp ha)))
    have e1 : l1.all p = false := by revert h1; cases l1.all p <;> simp
    have e2 : l2.all p = false := by revert h2; cases l2.all p <;> simp
    rw [e1, e2]

/-- a node taken unchanged from the scan phase. -/
def ChildOk (S : List Task) (s : Task) : Prop :=
  s ∈ S ∧ s.subtasks = none ∧ s.isVirtual = false

/-- structural invariant of every root during phase 2: a childless root is
a scanned node, and a `subtasks` field is nonempty and holds scanned
nodes. -/
def RootOk (S : List Task) (r : Task) : Prop :=
  (r.subtasks = none → r ∈ S ∧ r.isVirtual = false) ∧
  (∀ l, r.subtasks = some l → l ≠ [] ∧ ∀ s ∈ l, ChildOk S s)

theorem rootOk_of_childOk {S : List Task} {r : Task} (h : ChildOk S r) :
    RootOk S r := by
  refine ⟨fun _ => ⟨h.1, h.2.2⟩, fun l hl => ?_⟩
  rw [h.2.1] at hl
  exact absurd hl (by simp)

theorem rootOk_push {S : List Task} {r t : Task} (hr : RootOk S r)
    (ht : ChildOk S t) : RootOk S (pushSubtask t r) := by
  cases r with
  | mk n d c s v =>
    constructor
    · intro habs
      simp [pushSubtask, Task.subtasks] at habs
    · intro l hl
      simp only [pushSubtask, Task.subtasks, Option.some.injEq] at hl
      subst hl
      constructor
      · simp
      · intro x hx
        rcases List.mem_append.mp hx with hx | hx
        · cases s with
          | none => simp at hx
          | some ls =>
            have hs : (Task.mk n d c (some ls) v).subtasks = some ls := rfl
            have := (hr.2 ls hs).2 x (by simpa using hx)
            exact this
        · simp at hx
          subst hx
          exact ht

theorem lookupIdx_setIdx_self (m : RootIdx) (k : String) (v : Nat) :
    lookupIdx (setIdx m k v) k = some v := by
  simp [lookupIdx, setIdx, List.find?]

/-- phase-A pass preserves the structural invariant. -/
theorem passA_inv {S : List Task} {ts : List Task}
    (hts : ∀ t ∈ ts, ChildOk S t) :
    ∀ st : List Task × RootIdx, (∀ r ∈ st.1, RootOk S r) →
      ∀ r ∈ (ts.foldl passAStep st).1, RootOk S r := by
  induction ts with
  | nil => intro st hst; simpa using hst
  | cons t ts ih =>
    intro st hst
    simp only [List.foldl_cons]
    apply ih (fun u hu => hts u (List.mem_cons_of_mem _ hu))
    intro r hr
    unfold passAStep at hr
    by_cases hd : strContains t.number '.' = true
    · rw [if_pos hd] at hr
      exact hst r hr
    · rw [if_neg hd] at hr
      rcases List.mem_append.mp hr with h | h
      · exact hst r h
      · simp at h
        have hok := rootOk_of_childOk (hts t (List.mem_cons_self _ _))
        rwa [h]

/-- phase-B pass preserves the structural invariant: attaching a scanned
subtask keeps every root well-formed, and a synthesized virtual root
immediately receives its first child. -/
theorem passB_inv {S : List Task} {lines : List String} {ts : List Task}
    (hts : ∀ t ∈ ts, ChildOk S t) :
    ∀ st : List Task × RootIdx, (∀ r ∈ st.1, RootOk S r) →
      ∀ r ∈ (ts.foldl (passBStep lines) st).1, RootOk S r := by
  induction ts with
  | nil => intro st hst; simpa using hst
  | cons t ts ih =>
    intro st hst
    simp only [List.foldl_cons]
    apply ih (fun u hu => hts u (List.mem_cons_of_mem _ hu))
    intro r hr
    have htc : ChildOk S t := hts t (List.mem_cons_self _ _)
    unfold passBStep at hr
    by_cases hd : strContains t.number '.' = true
    · rw [if_pos hd] at hr
      cases hlook : lookupIdx st.2 (firstSegment t.number) with
      | some i =>
        simp only [hlook] at hr
        rcases mem_updateAt hr with h | ⟨r0, hr0, hfr⟩
        · exact hst r h
        · subst hfr
          exact rootOk_push (hst r0 hr0) htc
      | none =>
        simp only [hlook, lookupIdx_setIdx_self] at hr
        rw [updateAt_append_length] at hr
        rcases List.mem_append.mp hr with h | h
        · exact hst r h
        · simp at h
          subst h
          constructor
          · intro habs
            simp [pushSubtask, Task.subtasks] at habs
          · intro l hl
            simp only [pushSubtask, Task.subtasks, Option.some.injEq] at hl
            subst hl
            refine ⟨by simp, ?_⟩
            intro x hx
            simp at hx
            subst hx
            exact htc
    · rw [if_neg hd] at hr
      exact hst r hr

/-- the structural invariant together with the derived-checked law. -/
def RootOk2 (S : List Task) (r : Task) : Prop :=
  RootOk S r ∧ ∀ l, r.subtasks = some l → r.checked = l.all Task.checked

theorem deriveChecked_ok {S : List Task} {r : Task} (h : RootOk S r) :
    RootOk2 S (deriveChecked r) := by
  cases r with
  | mk n d c s v =>
    cases s with
    | none =>
      refine ⟨h, ?_⟩
      intro l hl
      exact absurd hl (by simp [deriveChecked, Task.subtasks])
    | some ls =>
      cases ls with
      | nil =>
        exact absurd rfl (h.2 [] rfl).1
      | cons a as =>
        constructor
        · constructor
          · intro habs
            simp [deriveChecked, Task.subtasks] at habs
          · intro l hl
            simp only [deriveChecked, Task.subtasks, Option.some.injEq] at hl
            subst hl
            exact h.2 (a :: as) rfl
        · intro l hl
          simp only [deriveChecked, Task.subtasks, Option.some.injEq] at hl
          subst hl
          rfl

theorem sortSubtasksOf_ok {S : List Task} {r : Task} (h : RootOk2 S r) :
    RootOk2 S (sortSubtasksOf r) := by
  cases r with
  | mk n d c s v =>
    cases s with
    | none => exact h
    | some ls =>
      have hperm : (sortBy subBefore ls).Perm ls := sortBy_perm_any _ _
      constructor
      · constructor
        · intro habs
          simp [sortSubtasksOf, Task.subtasks] at habs
        · intro l hl
          simp only [sortSubtasksOf, Task.subtasks, Option.some.injEq] at hl
          subst hl
          constructor
          · intro hnil
            have hls : ls = [] := (hnil ▸ hperm).symm.eq_nil
            exact absurd hls (h.1.2 ls rfl).1
          · intro x hx
            exact (h.1.2 ls rfl).2 x (hperm.mem_iff.mp hx)
      · intro l hl
        simp only [sortSubtasksOf, Task.subtasks, Option.some.injEq] at hl
        subst hl
        have hc := h.2 ls rfl
        simp only [Task.checked] at hc
        simp only [sortSubtasksOf, Task.checked]
        rw [hc]
        exact (all_of_perm hperm _).symm

/-- every root of a parsed forest is well-formed: childless roots and all
children are literal scanned nodes, `subtasks` fields are nonempty, and a
root with children has its checked flag equal to the conjunction of its
children's flags. -/
theorem parse_rootOk2 (content : String) :
    ∀ r ∈ parseTasksFromContent content,
      RootOk2 (scanTasks (splitLines content)) r := by
  intro r hr
  unfold parseTasksFromContent at hr
  simp only [List.mem_map] at hr
  obtain ⟨r1, hr1, hr1e⟩ := hr
  have hr1m := (sortBy_perm_any rootBefore _).mem_iff.mp hr1
  simp only [List.mem_map] at hr1m
  obtain ⟨r0, hr0, hr0e⟩ := hr1m
  have hts : ∀ t ∈ scanTasks (splitLines content),
      ChildOk (scanTasks (splitLines content)) t := by
    intro t ht
    exact ⟨ht, (scanTasks_shape _ t ht).1, (scanTasks_shape _ t ht).2⟩
  have hA := passA_inv hts (([], []) : List Task × RootIdx) (by simp)
  have hB := passB_inv hts _ hA r0 hr0
  rw [← hr1e, ← hr0e]
  exact sortSubtasksOf_ok (deriveChecked_ok hB)

/-- characterization of the next-task selector on any forest whose roots
are well-formed: the result is nothing, a childless scanned root, or a
scanned child of some root. -/
theorem getFirst_characterize (S : List Task) :
    ∀ F : List Task, (∀ r ∈ F, RootOk2 S r) →
      getFirstUncompletedTask F = none ∨
      ∃ t, getFirstUncompletedTask F = some t ∧
        t.subtasks = none ∧ t.isVirtual = false ∧ t ∈ S ∧
        (t ∈ F ∨ ∃ r ∈ F, ∃ l, r.subtasks = some l ∧ t ∈ l) := by
  intro F
  induction F with
  | nil => intro _; exact Or.inl rfl
  | cons r rs ih =>
    intro hF
    have hr := hF r (List.mem_cons_self _ _)
    cases r with
    | mk n d c subs v =>
      cases subs with
      | some ls =>
        cases ls with
        | nil => exact absurd rfl (hr.1.2 [] rfl).1
        | cons s ss =>
          cases hfind : (s :: ss).find? (fun st => !st.checked) with
          | some f =>
            have hfmem := List.mem_of_find?_eq_some hfind
            have hchild := (hr.1.2 (s :: ss) rfl).2 f hfmem
            refine Or.inr ⟨f, ?_, hchild.2.1, hchild.2.2, hchild.1, ?_⟩
            · simp only [getFirstUncompletedTask, hfind]
            · exact Or.inr ⟨Task.mk n d c (some (s :: ss)) v,
                List.mem_cons_self _ _, s :: ss, rfl, hfmem⟩
          | none =>
            have hallc : (s :: ss).all Task.checked = true := by
              rw [List.all_eq_true]
              intro x hx
              have := List.find?_eq_none.mp hfind x hx
              revert this
              cases x.checked <;> simp
            have hc : c = true := by
              have := hr.2 (s :: ss) rfl
              simp only [Task.checked] at this
              rw [this, hallc]
            subst hc
            simp only [getFirstUncompletedTask, hfind, Bool.not_true,
              Bool.false_eq_true, if_false]
            rcases ih (fun x hx => hF x (List.mem_cons_of_mem _ hx)) with h | ⟨t, ht, h1, h2, h3, h4⟩
            · exact Or.inl h
            · refine Or.inr ⟨t, ht, h1, h2, h3, ?_⟩
              rcases h4 with h4 | ⟨r2, hr2, l2, hl2, htl2⟩
              · exact Or.inl (List.mem_cons_of_mem _ h4)
              · exact Or.inr ⟨r2, List.mem_cons_of_mem _ hr2, l2, hl2, htl2⟩
      | none =>
        by_cases hc : c = true
        · simp only [getFirstUncompletedTask, hc, Bool.not_true, Bool.false_eq_true,
            if_false]
          rcases ih (fun x hx => hF x (List.mem_cons_of_mem _ hx)) with h | ⟨t, ht, h1, h2, h3, h4⟩
          · exact Or.inl h
          · refine Or.inr ⟨t, ht, h1, h2, h3, ?_⟩
            rcases h4 with h4 | ⟨r2, hr2, l2, hl2, htl2⟩
            · exact Or.inl (List.mem_cons_of_mem _ h4)
            · exact Or.inr ⟨r2, List.mem_cons_of_mem _ hr2, l2, hl2, htl2⟩
        · have hcf : c = false := by revert hc; cases c <;> simp
          refine Or.inr ⟨Task.mk n d c none v, ?_, rfl, (hr.1.1 rfl).2,
            (hr.1.1 rfl).1, Or.inl (List.mem_cons_self _ _)⟩
          simp [getFirstUncompletedTask, hcf]

/-! ## Attachment and synthesis invariants (for the orphan claim) -/

/-- the numbers of the top-level (dotless) scanned tasks. -/
def scannedRootNums (scanned : List Task) : List String :=
  (scanned.filter (fun t => !(strContains t.number '.'))).map Task.number

theorem pushSubtask_number (t r : Task) : (pushSubtask t r).number = r.number := by
  cases r; rfl

theorem pushSubtask_isVirtual (t r : Task) :
    (pushSubtask t r).isVirtual = r.isVirtual := by
  cases r; rfl

theorem pushSubtask_description (t r : Task) :
    (pushSubtask t r).description = r.description := by
  cases r; rfl

theorem deriveChecked_number (r : Task) : (deriveChecked r).number = r.number := by
  cases r with
  | mk n d c s v =>
    cases s with
    | none => rfl
    | some ls => cases ls with
      | nil => rfl
      | cons a as => rfl

theorem deriveChecked_isVirtual (r : Task) :
    (deriveChecked r).isVirtual = r.isVirtual := by
  cases r with
  | mk n d c s v =>
    cases s with
    | none => rfl
    | some ls => cases ls with
      | nil => rfl
      | cons a as => rfl

theorem deriveChecked_description (r : Task) :
    (deriveChecked r).description = r.description := by
  cases r with
  | mk n d c s v =>
    cases s with
    | none => rfl
    | some ls => cases ls with
      | nil => rfl
      | cons a as => rfl

theorem deriveChecked_subtasks (r : Task) : (deriveChecked r).subtasks = r.subtasks := by
  cases r with
  | mk n d c s v =>
    cases s with
    | none => rfl
    | some ls => cases ls with
      | nil => rfl
      | cons a as => rfl

theorem sortSubtasksOf_number (r : Task) : (sortSubtasksOf r).number = r.number := by
  cases r with
  | mk n d c s v => cases s with
    | none => rfl
    | some ls => rfl

theorem sortSubtasksOf_isVirtual (r : Task) :
    (sortSubtasksOf r).isVirtual = r.isVirtual := by
  cases r with
  | mk n d c s v => cases s with
    | none => rfl
    | some ls => rfl

theorem sortSubtasksOf_description (r : Task) :
    (sortSubtasksOf r).description = r.description := by
  cases r with
  | mk n d c s v => cases s with
    | none => rfl
    | some ls => rfl

theorem lookupIdx_setIdx (m : RootIdx) (k : String) (v : Nat) (n : String) :
    lookupIdx (setIdx m k v) n = if k = n then some v else lookupIdx m n := by
  simp only [lookupIdx, setIdx]
  by_cases h : k = n
  · rw [List.find?_cons_of_pos _ (by simpa using h)]
    simp [h]
  · rw [List.find?_cons_of_neg _ (by simpa using h)]
    simp [h]

theorem getElem?_updateAt (l : List Task) (i j : Nat) (f : Task → Task) :
    (updateAt l i f)[j]? = if i = j then (l[j]?).map f else l[j]? := by
  induction l generalizing i j with
  | nil => simp [updateAt]
  | cons x xs ih =>
    cases i with
    | zero =>
      cases j with
      | zero => simp [updateAt]
      | succ j => simp [updateAt]
    | succ i =>
      cases j with
      | zero => simp [updateAt]
      | succ j => simpa [updateAt] using ih i j

theorem mem_or_image_updateAt {l : List Task} {r0 : Task} (h : r0 ∈ l)
    (i : Nat) (f : Task → Task) :
    r0 ∈ updateAt l i f ∨ f r0 ∈ updateAt l i f := by
  induction l generalizing i with
  | nil => simp at h
  | cons x xs ih =>
    cases i with
    | zero =>
      rcases List.mem_cons.mp h with h | h
      · subst h
        exact Or.inr (List.mem_cons_self _ _)
      · exact Or.inl (List.mem_cons_of_mem _ h)
    | succ i =>
      rcases List.mem_cons.mp h with h | h
      · subst h
        exact Or.inl (List.mem_cons_self _ _)
      · rcases ih h i with h2 | h2
        · exact Or.inl (List.mem_cons_of_mem _ h2)
        · exact Or.inr (List.mem_cons_of_mem _ h2)

/-- state invariant of phase 2: the map indexes roots by their numbers,
every scanned top-level number has a map entry, and each root's virtual
flag records its provenance (virtual roots synthesize a missing number
with the looked-up title; non-virtual roots are scanned top-level
numbers). -/
def StInv (scanned : List Task) (lines : List String)
    (st : List Task × RootIdx) : Prop :=
  (∀ n i, lookupIdx st.2 n = some i → ∃ r, st.1[i]? = some r ∧ r.number = n) ∧
  (∀ n ∈ scannedRootNums scanned, lookupIdx st.2 n ≠ none) ∧
  (∀ r ∈ st.1,
    (r.isVirtual = true → ¬r.number ∈ scannedRootNums scanned ∧
      r.description = titleForGroup lines r.number) ∧
    (r.isVirtual = false → r.number ∈ scannedRootNums scanned))

/-- a subtask already attached under a root with its first-segment
number. -/
def Attached (roots : List Task) (t : Task) : Prop :=
  ∃ r ∈ roots, r.number = firstSegment t.number ∧
    ∃ l, r.subtasks = some l ∧ t ∈ l

theorem lt_of_getElem?_some {l : List Task} {i : Nat} {a : Task}
    (h : l[i]? = some a) : i < l.length := by
  by_contra hc
  rw [List.getElem?_eq_none (by omega)] at h
  exact Option.noConfusion h

theorem getElem?_append_left' {l1 l2 : List Task} {i : Nat} (h : i < l1.length) :
    (l1 ++ l2)[i]? = l1[i]? := by
  rw [List.getElem?_append, if_pos h]

theorem mem_of_getElem?_some {l : List Task} {i : Nat} {a : Task}
    (h : l[i]? = some a) : a ∈ l := by
  induction l generalizing i with
  | nil => simp at h
  | cons x xs ih =>
    cases i with
    | zero =>
      simp only [List.getElem?_cons_zero, Option.some.injEq] at h
      exact h ▸ List.mem_cons_self _ _
    | succ i =>
      simp only [List.getElem?_cons_succ] at h
      exact List.mem_cons_of_mem _ (ih h)

/-- phase-A step preserves the index and provenance clauses when fed a
scanned task. -/
theorem passAStep_idxVirt {scanned : List Task} {lines : List String}
    {st : List Task × RootIdx}
    (hidx : ∀ n i, lookupIdx st.2 n = some i → ∃ r, st.1[i]? = some r ∧ r.number = n)
    (hvirt : ∀ r ∈ st.1,
      (r.isVirtual = true → ¬r.number ∈ scannedRootNums scanned ∧
        r.description = titleForGroup lines r.number) ∧
      (r.isVirtual = false → r.number ∈ scannedRootNums scanned))
    {t : Task} (htv : t.isVirtual = false)
    (htmem : ¬strContains t.number '.' = true →
      t.number ∈ scannedRootNums scanned) :
    (∀ n i, lookupIdx (passAStep st t).2 n = some i →
      ∃ r, (passAStep st t).1[i]? = some r ∧ r.number = n) ∧
    (∀ r ∈ (passAStep st t).1,
      (r.isVirtual = true → ¬r.number ∈ scannedRootNums scanned ∧
        r.description = titleForGroup lines r.number) ∧
      (r.isVirtual = false → r.number ∈ scannedRootNums scanned)) := by
  unfold passAStep
  by_cases hd : strContains t.number '.' = true
  · rw [if_pos hd]
    exact ⟨hidx, hvirt⟩
  · rw [if_neg hd]
    constructor
    · intro n i hl
      rw [lookupIdx_setIdx] at hl
      by_cases he : t.number = n
      · rw [if_pos he] at hl
        have hi := Option.some.inj hl
        subst hi
        exact ⟨t, List.getElem?_concat_length _ _, he⟩
      · rw [if_neg he] at hl
        obtain ⟨r, hr, hrn⟩ := hidx n i hl
        exact ⟨r, (getElem?_append_left' (lt_of_getElem?_some hr)).trans hr, hrn⟩
    · intro r hr
      rcases List.mem_append.mp hr with h | h
      · exact hvirt r h
      · simp at h
        subst h
        exact ⟨fun hv => absurd hv (by simp [htv]), fun _ => htmem hd⟩

/-- phase-A pass preserves the index and provenance clauses. -/
theorem passA_idxVirt {scanned : List Task} {lines : List String} {ts : List Task}
    (hts : ∀ t ∈ ts, t.isVirtual = false ∧
      (¬strContains t.number '.' = true → t.number ∈ scannedRootNums scanned)) :
    ∀ st : List Task × RootIdx,
      (∀ n i, lookupIdx st.2 n = some i → ∃ r, st.1[i]? = some r ∧ r.number = n) →
      (∀ r ∈ st.1,
        (r.isVirtual = true → ¬r.number ∈ scannedRootNums scanned ∧
          r.description = titleForGroup lines r.number) ∧
        (r.isVirtual = false → r.number ∈ scannedRootNums scanned)) →
      (∀ n i, lookupIdx ((ts.foldl passAStep st)).2 n = some i →
        ∃ r, ((ts.foldl passAStep st)).1[i]? = some r ∧ r.number = n) ∧
      (∀ r ∈ (ts.foldl passAStep st).1,
        (r.isVirtual = true → ¬r.number ∈ scannedRootNums scanned ∧
          r.description = titleForGroup lines r.number) ∧
        (r.isVirtual = false → r.number ∈ scannedRootNums scanned)) := by
  induction ts with
  | nil => intro st h1 h3; exact ⟨h1, h3⟩
  | cons t ts ih =>
    intro st h1 h3
    simp only [List.foldl_cons]
    have hstep := passAStep_idxVirt h1 h3 (hts t (List.mem_cons_self _ _)).1
      (hts t (List.mem_cons_self _ _)).2
    exact ih (fun u hu => hts u (List.mem_cons_of_mem _ hu)) _ hstep.1 hstep.2

/-- phase-A pass creates a map entry for every dotless number it sees, and
keeps every existing entry. -/
theorem passA_keys {ts : List Task} :
    ∀ (st : List Task × RootIdx) (n : String),
      (lookupIdx st.2 n ≠ none ∨
        ∃ t ∈ ts, ¬strContains t.number '.' = true ∧ t.number = n) →
      lookupIdx ((ts.foldl passAStep st)).2 n ≠ none := by
  induction ts with
  | nil =>
    intro st n h
    rcases h with h | ⟨t, ht, _⟩
    · simpa using h
    · simp at ht
  | cons t ts ih =>
    intro st n h
    simp only [List.foldl_cons]
    apply ih
    unfold passAStep
    by_cases hd : strContains t.number '.' = true
    · rw [if_pos hd]
      rcases h with h | ⟨u, hu, hud, hun⟩
      · exact Or.inl h
      · rcases List.mem_cons.mp hu with hu | hu
        · subst hu
          exact absurd hd hud
        · exact Or.inr ⟨u, hu, hud, hun⟩
    · rw [if_neg hd]
      rcases h with h | ⟨u, hu, hud, hun⟩
      · left
        rw [lookupIdx_setIdx]
        by_cases he : t.number = n
        · simp [he]
        · rw [if_neg he]
          exact h
      · rcases List.mem_cons.mp hu with hu | hu
        · subst hu
          left
          rw [lookupIdx_setIdx, if_pos hun]
          simp
        · exact Or.inr ⟨u, hu, hud, hun⟩

theorem mem_scannedRootNums {scanned : List Task} {n : String} :
    n ∈ scannedRootNums scanned ↔
      ∃ t ∈ scanned, ¬strContains t.number '.' = true ∧ t.number = n := by
  simp only [scannedRootNums, List.mem_map, List.mem_filter]
  constructor
  · rintro ⟨t, ⟨ht, hd⟩, hn⟩
    exact ⟨t, ht, by simpa using hd, hn⟩
  · rintro ⟨t, ht, hd, hn⟩
    exact ⟨t, ⟨ht, by simpa using hd⟩, hn⟩

/-- after phase A (from the empty state over the scanned list), the full
state invariant holds. -/
theorem passA_stInv_full (scanned : List Task) (lines : List String)
    (hshape : ∀ t ∈ scanned, t.isVirtual = false) :
    StInv scanned lines (scanned.foldl passAStep ([], [])) := by
  have hts : ∀ t ∈ scanned, t.isVirtual = false ∧
      (¬strContains t.number '.' = true → t.number ∈ scannedRootNums scanned) := by
    intro t ht
    exact ⟨hshape t ht, fun hd => mem_scannedRootNums.mpr ⟨t, ht, hd, rfl⟩⟩
  have h13 := @passA_idxVirt scanned lines scanned hts (([], []) : List Task × RootIdx)
    (by intro n i hl; simp [lookupIdx] at hl) (by simp)
  refine ⟨h13.1, ?_, h13.2⟩
  intro n hn
  apply passA_keys
  right
  obtain ⟨t, ht, hd, hnn⟩ := mem_scannedRootNums.mp hn
  exact ⟨t, ht, hd, hnn⟩

/-- phase-B step preserves the state invariant. -/
theorem passBStep_stInv {scanned : List Task} {lines : List String}
    {st : List Task × RootIdx} (hinv : StInv scanned lines st) (t : Task) :
    StInv scanned lines (passBStep lines st t) := by
  unfold passBStep
  by_cases hd : strContains t.number '.' = true
  · rw [if_pos hd]
    cases hlook : lookupIdx st.2 (firstSegment t.number) with
    | some i =>
      simp only [hlook]
      refine ⟨?_, hinv.2.1, ?_⟩
      · intro n j hl
        obtain ⟨r, hr, hrn⟩ := hinv.1 n j hl
        rw [getElem?_updateAt]
        by_cases hij : i = j
        · rw [if_pos hij, hr]
          exact ⟨pushSubtask t r, rfl, (pushSubtask_number t r).trans hrn⟩
        · rw [if_neg hij]
          exact ⟨r, hr, hrn⟩
      · intro r hr
        rcases mem_updateAt hr with h | ⟨r0, hr0, hfr⟩
        · exact hinv.2.2 r h
        · subst hfr
          have h0 := hinv.2.2 r0 hr0
          rw [pushSubtask_isVirtual, pushSubtask_number, pushSubtask_description]
          exact h0
    | none =>
      simp only [hlook, lookupIdx_setIdx_self]
      rw [updateAt_append_length]
      have hseg : ¬firstSegment t.number ∈ scannedRootNums scanned := by
        intro hmem
        exact hinv.2.1 _ hmem hlook
      refine ⟨?_, ?_, ?_⟩
      · intro n j hl
        rw [lookupIdx_setIdx] at hl
        by_cases he : firstSegment t.number = n
        · rw [if_pos he] at hl
          have hj := Option.some.inj hl
          subst hj
          refine ⟨pushSubtask t
            (Task.mk (firstSegment t.number)
              (titleForGroup lines (firstSegment t.number)) false (some []) true),
            List.getElem?_concat_length _ _, ?_⟩
          rw [pushSubtask_number]
          exact he
        · rw [if_neg he] at hl
          obtain ⟨r, hr, hrn⟩ := hinv.1 n j hl
          exact ⟨r, (getElem?_append_left' (lt_of_getElem?_some hr)).trans hr, hrn⟩
      · intro n hn
        rw [lookupIdx_setIdx]
        by_cases he : firstSegment t.number = n
        · simp [he]
        · rw [if_neg he]
          exact hinv.2.1 n hn
      · intro r hr
        rcases List.mem_append.mp hr with h | h
        · exact hinv.2.2 r h
        · simp at h
          subst h
          constructor
          · intro _
            rw [pushSubtask_number, pushSubtask_description]
            exact ⟨hseg, rfl⟩
          · intro hv
            rw [pushSubtask_isVirtual] at hv
            exact absurd hv (by simp [Task.isVirtual])
  · rw [if_neg hd]
    exact hinv

/-- phase-B step: the processed dotted task ends up attached. -/
theorem passBStep_attaches {scanned : List Task} {lines : List String}
    {st : List Task × RootIdx} (hinv : StInv scanned lines st) (t : Task)
    (hd : strContains t.number '.' = true) :
    Attached (passBStep lines st t).1 t := by
  unfold passBStep
  rw [if_pos hd]
  cases hlook : lookupIdx st.2 (firstSegment t.number) with
  | some i =>
    simp only [hlook]
    obtain ⟨r, hr, hrn⟩ := hinv.1 _ i hlook
    have hup : (updateAt st.1 i (pushSubtask t))[i]? = some (pushSubtask t r) := by
      rw [getElem?_updateAt, if_pos rfl, hr]
      rfl
    refine ⟨pushSubtask t r, mem_of_getElem?_some hup,
      (pushSubtask_number t r).trans hrn, ?_⟩
    cases r with
    | mk n d c s v =>
      exact ⟨s.getD [] ++ [t], rfl, List.mem_append.mpr (Or.inr (List.mem_cons_self _ _))⟩
  | none =>
    simp only [hlook, lookupIdx_setIdx_self]
    rw [updateAt_append_length]
    refine ⟨pushSubtask t
      (Task.mk (firstSegment t.number)
        (titleForGroup lines (firstSegment t.number)) false (some []) true),
      List.mem_append.mpr (Or.inr (List.mem_cons_self _ _)), ?_, ?_⟩
    · rw [pushSubtask_number]
      rfl
    · exact ⟨[t], rfl, List.mem_cons_self _ _⟩

/-- attachment is preserved by later phase-B steps. -/
theorem passBStep_attached_mono {lines : List String}
    {st : List Task × RootIdx} {t0 : Task} (h : Attached st.1 t0) (t : Task) :
    Attached (passBStep lines st t).1 t0 := by
  obtain ⟨r, hr, hrn, l, hl, htl⟩ := h
  unfold passBStep
  by_cases hd : strContains t.number '.' = true
  · rw [if_pos hd]
    cases hlook : lookupIdx st.2 (firstSegment t.number) with
    | some i =>
      simp only [hlook]
      rcases mem_or_image_updateAt hr i (pushSubtask t) with h2 | h2
      · exact ⟨r, h2, hrn, l, hl, htl⟩
      · refine ⟨pushSubtask t r, h2, (pushSubtask_number t r).trans hrn, ?_⟩
        cases r with
        | mk n d c s v =>
          simp only [Task.subtasks] at hl
          subst hl
          exact ⟨l ++ [t], rfl, List.mem_append.mpr (Or.inl htl)⟩
    | none =>
      simp only [hlook, lookupIdx_setIdx_self]
      rw [updateAt_append_length]
      have hr2 : r ∈ st.1 ++ [Task.mk (firstSegment t.number)
          (titleForGroup lines (firstSegment t.number)) false (some []) true] :=
        List.mem_append.mpr (Or.inl hr)
      rcases mem_or_image_updateAt hr2 st.1.length (pushSubtask t) with h2 | h2
      · rw [updateAt_append_length] at h2
        exact ⟨r, h2, hrn, l, hl, htl⟩
      · rw [updateAt_append_length] at h2
        refine ⟨pushSubtask t r, h2, (pushSubtask_number t r).trans hrn, ?_⟩
        cases r with
        | mk n d c s v =>
          simp only [Task.subtasks] at hl
          subst hl
          exact ⟨l ++ [t], rfl, List.mem_append.mpr (Or.inl htl)⟩
  · rw [if_neg hd]
    exact ⟨r, hr, hrn, l, hl, htl⟩

/-- attachment is preserved by a whole phase-B pass. -/
theorem passB_attached_mono_fold {lines : List String} {t0 : Task} (ts : List Task) :
    ∀ st : List Task × RootIdx, Attached st.1 t0 →
      Attached ((ts.foldl (passBStep lines) st)).1 t0 := by
  induction ts with
  | nil => intro st h; simpa using h
  | cons t ts ih =>
    intro st h
    simp only [List.foldl_cons]
    exact ih _ (passBStep_attached_mono h t)

/-- phase-B pass: the invariant is preserved and every dotted task of the
input ends up attached under a root keyed by its first segment. -/
theorem passB_main {scanned : List Task} {lines : List String} {ts : List Task} :
    ∀ st : List Task × RootIdx, StInv scanned lines st →
      StInv scanned lines (ts.foldl (passBStep lines) st) ∧
      ∀ t ∈ ts, strContains t.number '.' = true →
        Attached ((ts.foldl (passBStep lines) st)).1 t := by
  induction ts with
  | nil =>
    intro st h
    exact ⟨h, by simp⟩
  | cons t ts ih =>
    intro st h
    simp only [List.foldl_cons]
    have hstep := passBStep_stInv h t
    obtain ⟨hfin, hatt⟩ := ih _ hstep
    refine ⟨hfin, ?_⟩
    intro u hu hud
    rcases List.mem_cons.mp hu with hu | hu
    · subst hu
      exact passB_attached_mono_fold ts _ (passBStep_attaches h u hud)
    · exact hatt u hu hud

theorem sortSubtasksOf_subtasks (r : Task) :
    (sortSubtasksOf r).subtasks = (r.subtasks).map (sortBy subBefore) := by
  cases r with
  | mk n d c s v =>
    cases s with
    | none => rfl
    | some ls => rfl

/-- the orphan attachment-and-synthesis property of the full parser: every
scanned dotted task ends up as a child of a parsed root whose number is the
task's first dot-segment; and when no dotless scanned task carries that
number, that root is synthetic with the looked-up (or fallback) title. -/
theorem parse_orphan (content : String) (t : Task)
    (ht : t ∈ scanTasks (splitLines content))
    (hd : strContains t.number '.' = true) :
    ∃ r ∈ parseTasksFromContent content,
      r.number = firstSegment t.number ∧
      (∃ l, r.subtasks = some l ∧ t ∈ l) ∧
      (¬firstSegment t.number ∈ scannedRootNums (scanTasks (splitLines content)) →
        r.isVirtual = true ∧
        r.description = titleForGroup (splitLines content) (firstSegment t.number)) := by
  have hshape : ∀ u ∈ scanTasks (splitLines content), u.isVirtual = false :=
    fun u hu => (scanTasks_shape _ u hu).2
  have hStA := passA_stInv_full (scanTasks (splitLines content)) (splitLines content) hshape
  obtain ⟨hStB, hatt⟩ := passB_main _ hStA
  have hattT := hatt t ht hd
  obtain ⟨r, hr, hrn, l, hl, htl⟩ := hattT
  have hv := hStB.2.2 r hr
  refine ⟨sortSubtasksOf (deriveChecked r), ?_, ?_, ?_, ?_⟩
  · unfold parseTasksFromContent
    exact List.mem_map_of_mem _
      ((sortBy_perm_any rootBefore _).mem_iff.mpr (List.mem_map_of_mem _ hr))
  · rw [sortSubtasksOf_number, deriveChecked_number]
    exact hrn
  · refine ⟨sortBy subBefore l, ?_, (sortBy_perm_any subBefore l).mem_iff.mpr htl⟩
    rw [sortSubtasksOf_subtasks, deriveChecked_subtasks, hl]
    rfl
  · intro hno
    by_cases hvirt : r.isVirtual = true
    · constructor
      · rw [sortSubtasksOf_isVirtual, deriveChecked_isVirtual]
        exact hvirt
      · rw [sortSubtasksOf_description, deriveChecked_description]
        rw [(hv.1 hvirt).2, hrn]
    · have hvf : r.isVirtual = false := by revert hvirt; cases r.isVirtual <;> simp
      exact absurd (hrn ▸ hv.2 hvf) hno

/-! ## Claim theorems -/

/-- C10: in every parsed forest, a root carrying a `subtasks` field has its
checked flag equal to the conjunction of its children's flags, and the
next-task selector never returns a synthetic node or a node with children:
its result is nothing, or a non-virtual, childless node that is a scanned
node of a literal checkbox line — either a childless root or a child of
some root. -/
theorem C10_derived_checked_selector (content : String) :
    (∀ r ∈ parseTasksFromContent content, ∀ l, r.subtasks = some l →
      r.checked = l.all Task.checked) ∧
    (getFirstUncompletedTask (parseTasksFromContent content) = none ∨
     ∃ t, getFirstUncompletedTask (parseTasksFromContent content) = some t ∧
       t.subtasks = none ∧ t.isVirtual = false ∧
       t ∈ scanTasks (splitLines content) ∧
       (t ∈ parseTasksFromContent content ∨
        ∃ r ∈ parseTasksFromContent content,
          ∃ l, r.subtasks = some l ∧ t ∈ l)) := by
  constructor
  · intro r hr l hl
    exact (parse_rootOk2 content r hr).2 l hl
  · exact getFirst_characterize _ _ (parse_rootOk2 content)

/-- C10 (witness): on a document with a checked root `1` and a root `2`
with the unchecked child `2.1`, the root's flag is the conjunction of its
children's flags and the selector returns the scanned child `2.1`. -/
theorem C10_derived_checked_selector_witness :
    (Task.mk "2" "B" false (some [Task.mk "2.1" "C" false none false]) false).checked
      = [Task.mk "2.1" "C" false none false].all Task.checked ∧
    ∃ t, getFirstUncompletedTask
        (parseTasksFromContent "- [x] 1. A\n- [ ] 2. B\n- [ ] 2.1 C") = some t ∧
      t.subtasks = none ∧ t.isVirtual = false ∧
      t ∈ scanTasks (splitLines "- [x] 1. A\n- [ ] 2. B\n- [ ] 2.1 C") ∧
      (t ∈ parseTasksFromContent "- [x] 1. A\n- [ ] 2. B\n- [ ] 2.1 C" ∨
       ∃ r ∈ parseTasksFromContent "- [x] 1. A\n- [ ] 2. B\n- [ ] 2.1 C",
         ∃ l, r.subtasks = some l ∧ t ∈ l) := by
  have h := C10_derived_checked_selector "- [x] 1. A\n- [ ] 2. B\n- [ ] 2.1 C"
  constructor
  · refine h.1 (Task.mk "2" "B" false (some [Task.mk "2.1" "C" false none false]) false)
      ?_ [Task.mk "2.1" "C" false none false] rfl
    rw [show parseTasksFromContent "- [x] 1. A\n- [ ] 2. B\n- [ ] 2.1 C"
      = [Task.mk "1" "A" true none false,
         Task.mk "2" "B" false (some [Task.mk "2.1" "C" false none false]) false] from rfl]
    exact List.mem_cons_of_mem _ (List.mem_cons_self _ _)
  · rcases h.2 with h0 | ht
    · rw [show getFirstUncompletedTask
          (parseTasksFromContent "- [x] 1. A\n- [ ] 2. B\n- [ ] 2.1 C")
        = some (Task.mk "2.1" "C" false none false) from rfl] at h0
      exact Option.noConfusion h0
    · exact ht

/-- C1: whenever the per-id precondition check rejects some id of the batch
(not-found or has-uncompleted-subtasks, i.e. `cannotBeCompleted` is
nonempty) or the execution pass throws, the result has `success = false`,
an empty `completedTasks`, and the document text unchanged with no write —
all-or-nothing. -/
theorem C1_batch_atomicity (D : String) (S : List String)
    (h : (categorizeOf (parseTasksFromContent D) S).2.2 ≠ [] ∨
         ∃ msg, runCompletions D
            (sortTaskNumbers (categorizeOf (parseTasksFromContent D) S).2.1)
            = .error msg) :
    (completeBatchTasks D S).success = false ∧
    (completeBatchTasks D S).completedTasks = [] ∧
    (completeBatchTasks D S).updatedText = D ∧
    (completeBatchTasks D S).wrote = false := by
  rcases h with h | ⟨msg, hmsg⟩
  · rw [cbt_reject D S h]
    exact ⟨rfl, rfl, rfl, rfl⟩
  · by_cases hc : (categorizeOf (parseTasksFromContent D) S).2.2 = []
    · have hcan : (categorizeOf (parseTasksFromContent D) S).2.1 ≠ [] := by
        intro hnil
        rw [hnil] at hmsg
        simp [sortTaskNumbers, sortBy, runCompletions] at hmsg
      have h2 : ((categorizeOf (parseTasksFromContent D) S).2.1.isEmpty &&
          !(categorizeOf (parseTasksFromContent D) S).1.isEmpty) = false := by
        cases hL : (categorizeOf (parseTasksFromContent D) S).2.1 with
        | nil => exact absurd hL hcan
        | cons a t => simp [hL]
      rw [cbt_exec_err D S msg hc h2 hmsg]
      exact ⟨rfl, rfl, rfl, rfl⟩
    · rw [cbt_reject D S hc]
      exact ⟨rfl, rfl, rfl, rfl⟩

/-- C1 (witness): a batch containing the unknown id `9` against the empty
document is rejected wholesale. -/
theorem C1_batch_atomicity_witness :
    (completeBatchTasks "" ["9"]).success = false ∧
    (completeBatchTasks "" ["9"]).completedTasks = [] ∧
    (completeBatchTasks "" ["9"]).updatedText = "" ∧
    (completeBatchTasks "" ["9"]).wrote = false := by
  refine C1_batch_atomicity "" ["9"] (Or.inl ?_)
  rw [show (categorizeOf (parseTasksFromContent "") ["9"]).2.2
      = [FailedTask.mk "9" "Task does not exist"] from rfl]
  exact List.cons_ne_nil _ _

/-- C4: a batch whose ids are all already completed in the current parse
returns success with empty `completedTasks`, `alreadyCompleted` equal to
the input ids, the document text unchanged, and no write. -/
theorem C4_idempotence (D : String) (S : List String)
    (h : S.all (checkedIn (parseTasksFromContent D)) = true) :
    (completeBatchTasks D S).success = true ∧
    (completeBatchTasks D S).completedTasks = [] ∧
    (completeBatchTasks D S).alreadyCompleted = S ∧
    (completeBatchTasks D S).updatedText = D ∧
    (completeBatchTasks D S).wrote = false := by
  have hall : ∀ n ∈ S, checkedIn (parseTasksFromContent D) n = true :=
    List.all_eq_true.mp h
  have hcat := categorizeOf_eq (parseTasksFromContent D) S
  have hch : S.filter (checkedIn (parseTasksFromContent D)) = S :=
    List.filter_eq_self.mpr hall
  have hel : S.filter (eligibleIn (parseTasksFromContent D)) = [] := by
    rw [List.filter_eq_nil_iff]
    intro n hn
    have hc := hall n hn
    unfold checkedIn at hc
    unfold eligibleIn
    cases hf : findTaskByNumber (parseTasksFromContent D) n with
    | none => simp
    | some t => rw [hf] at hc; simp at hc; simp [hc]
  have hrej : S.filter (rejectedIn (parseTasksFromContent D)) = [] := by
    rw [List.filter_eq_nil_iff]
    intro n hn
    have hc := hall n hn
    unfold checkedIn at hc
    unfold rejectedIn
    cases hf : findTaskByNumber (parseTasksFromContent D) n with
    | none => rw [hf] at hc; exact absurd hc (by simp)
    | some t => rw [hf] at hc; simp at hc; simp [hc]
  have hcannot : (categorizeOf (parseTasksFromContent D) S).2.2 = [] := by
    rw [hcat]; simp [hrej]
  have hcan : (categorizeOf (parseTasksFromContent D) S).2.1 = [] := by
    rw [hcat]; simpa using hel
  have halr : (categorizeOf (parseTasksFromContent D) S).1 = S := by
    rw [hcat]; simpa using hch
  by_cases hS : S = []
  · have h2 : ((categorizeOf (parseTasksFromContent D) S).2.1.isEmpty &&
        !(categorizeOf (parseTasksFromContent D) S).1.isEmpty) = false := by
      rw [hcan, halr, hS]
      rfl
    have h3 : runCompletions D
        (sortTaskNumbers (categorizeOf (parseTasksFromContent D) S).2.1)
        = .ok (D, []) := by
      rw [hcan]; rfl
    rw [cbt_exec_ok D S D [] hcannot h2 h3]
    exact ⟨rfl, rfl, halr, rfl, rfl⟩
  · have halr2 : (categorizeOf (parseTasksFromContent D) S).1 ≠ [] := by
      rw [halr]; exact hS
    rw [cbt_already D S hcannot hcan halr2]
    exact ⟨rfl, rfl, halr, rfl, rfl⟩

/-- C4 (witness): replaying the completed id `1` is a no-op success. -/
theorem C4_idempotence_witness :
    (completeBatchTasks "- [x] 1. A" ["1"]).success = true ∧
    (completeBatchTasks "- [x] 1. A" ["1"]).completedTasks = [] ∧
    (completeBatchTasks "- [x] 1. A" ["1"]).alreadyCompleted = ["1"] ∧
    (completeBatchTasks "- [x] 1. A" ["1"]).updatedText = "- [x] 1. A" ∧
    (completeBatchTasks "- [x] 1. A" ["1"]).wrote = false :=
  C4_idempotence "- [x] 1. A" ["1"] rfl

/-- C8 (counterexample): the single-id path raises completion-mutation
failures as exceptions to the caller.  On a document whose task `1` is
found by the parser but whose line cannot be flipped by the
boundary-matcher (the id touches a word character), `completeSingleTask`
throws the internal mutation failure instead of reporting a structured
batch-level rejection. -/
theorem C8_exception_counterexample :
    completeSingleTask "a[ ]1. x" "1" = .error .markFailed :=
  rfl

/-- C8 (amended): the batch path surfaces failures only as a structured
result: when no id is rejected by the precondition check and the call
nevertheless fails, the result carries exactly one synthetic
`failedTasks` entry (taskNumber `"batch"`) with the document unchanged and
no write.  The single-id path instead throws for not-found,
blocked-by-children and internal mutation failures. -/
theorem C8_failure_amended :
    (∀ (D : String) (S : List String),
      (categorizeOf (parseTasksFromContent D) S).2.2 = [] →
      (completeBatchTasks D S).success = false →
      ∃ msg, (completeBatchTasks D S).failedTasks = [⟨"batch", msg⟩] ∧
        (completeBatchTasks D S).completedTasks = [] ∧
        (completeBatchTasks D S).updatedText = D ∧
        (completeBatchTasks D S).wrote = false) ∧
    completeSingleTask "" "1" = .error .taskNotFound ∧
    completeSingleTask "- [ ] 1. A\n- [ ] 1.1 B" "1" = .error .hasUncompletedSubtasks := by
  refine ⟨?_, rfl, rfl⟩
  intro D S h1 h2
  by_cases hb : ((categorizeOf (parseTasksFromContent D) S).2.1.isEmpty &&
      !(categorizeOf (parseTasksFromContent D) S).1.isEmpty) = true
  · have hb3 := hb
    simp only [Bool.and_eq_true] at hb3
    obtain ⟨hcanE, halrE⟩ := hb3
    have hcan : (categorizeOf (parseTasksFromContent D) S).2.1 = [] :=
      List.isEmpty_iff.mp hcanE
    have halr : (categorizeOf (parseTasksFromContent D) S).1 ≠ [] := by
      intro hx
      rw [hx] at halrE
      simp at halrE
    rw [cbt_already D S h1 hcan halr] at h2
    simp at h2
  · have hb2 : ((categorizeOf (parseTasksFromContent D) S).2.1.isEmpty &&
        !(categorizeOf (parseTasksFromContent D) S).1.isEmpty) = false := by
      revert hb
      cases ((categorizeOf (parseTasksFromContent D) S).2.1.isEmpty &&
        !(categorizeOf (parseTasksFromContent D) S).1.isEmpty)
      · intro _; rfl
      · intro hx; exact absurd rfl hx
    cases hr : runCompletions D
        (sortTaskNumbers (categorizeOf (parseTasksFromContent D) S).2.1) with
    | ok pr =>
      obtain ⟨fin, done⟩ := pr
      rw [cbt_exec_ok D S fin done h1 hb2 hr] at h2
      simp at h2
    | error msg =>
      rw [cbt_exec_err D S msg h1 hb2 hr]
      exact ⟨msg, rfl, rfl, rfl, rfl⟩

/-- C8 (witness): the unflippable task `1` makes the batch path report one
synthetic rejection with the document unchanged. -/
theorem C8_failure_amended_witness :
    ∃ msg, (completeBatchTasks "a[ ]1. x" ["1"]).failedTasks = [⟨"batch", msg⟩] ∧
      (completeBatchTasks "a[ ]1. x" ["1"]).completedTasks = [] ∧
      (completeBatchTasks "a[ ]1. x" ["1"]).updatedText = "a[ ]1. x" ∧
      (completeBatchTasks "a[ ]1. x" ["1"]).wrote = false :=
  C8_failure_amended.1 "a[ ]1. x" ["1"] rfl rfl

/-- C5: mutations are applied in exactly the order obtained by sorting the
eligible ids by descending hierarchy depth (number of dot segments), ties
broken by ascending lexicographic comparison: on success `completedTasks`
is that sort of the eligible input ids, it is sorted for the
depth-then-lex order and a permutation of the eligible ids, and the batch
outcome (success, completed list, updated text) is independent of the
input order of ids.  In particular `["2","2.1"]` is processed as
`["2.1","2"]`. -/
theorem C5_depth_ordering (D : String) (S T : List String) (hperm : S.Perm T) :
    ((completeBatchTasks D S).success = true →
      (completeBatchTasks D S).completedTasks
        = sortTaskNumbers (S.filter (eligibleIn (parseTasksFromContent D))) ∧
      List.Sorted (fun a b => (if taskDepth a = taskDepth b
          then charsLe a.data b.data else decide (taskDepth b < taskDepth a)) = true)
        (completeBatchTasks D S).completedTasks ∧
      ((completeBatchTasks D S).completedTasks).Perm
        (S.filter (eligibleIn (parseTasksFromContent D)))) ∧
    (completeBatchTasks D S).success = (completeBatchTasks D T).success ∧
    (completeBatchTasks D S).completedTasks = (completeBatchTasks D T).completedTasks ∧
    (completeBatchTasks D S).updatedText = (completeBatchTasks D T).updatedText ∧
    sortTaskNumbers ["2", "2.1"] = ["2.1", "2"] := by
  have hinv := cbt_perm_invariant D S T hperm
  refine ⟨?_, hinv.1, hinv.2.1, hinv.2.2, rfl⟩
  intro hSuc
  have hdone := cbt_success_completed D S hSuc
  have hrel : (fun a b : String => numBefore a b = true) =
      (fun a b : String => (if taskDepth a = taskDepth b
        then charsLe a.data b.data else decide (taskDepth b < taskDepth a)) = true) := by
    funext a b
    unfold numBefore localeLe
    by_cases h : taskDepth a = taskDepth b
    · simp [h]
    · simp [h]
  refine ⟨hdone, ?_, ?_⟩
  · rw [hdone, ← hrel]
    exact sortTaskNumbers_sorted _
  · rw [hdone]
    exact sortTaskNumbers_perm _

/-- C5 (witness): the parent `2` listed first is still processed after its
sibling-completing child list; concretely the batch `["2.2","2.1"]` equals
the batch `["2.1","2.2"]` and completes in sorted order. -/
theorem C5_depth_ordering_witness :
    (completeBatchTasks "- [ ] 2. R\n- [ ] 2.1 A\n- [ ] 2.2 B" ["2.2", "2.1"]).completedTasks
      = sortTaskNumbers
          (["2.2", "2.1"].filter
            (eligibleIn (parseTasksFromContent "- [ ] 2. R\n- [ ] 2.1 A\n- [ ] 2.2 B"))) ∧
    (completeBatchTasks "- [ ] 2. R\n- [ ] 2.1 A\n- [ ] 2.2 B" ["2.2", "2.1"]).completedTasks
      = (completeBatchTasks "- [ ] 2. R\n- [ ] 2.1 A\n- [ ] 2.2 B" ["2.1", "2.2"]).completedTasks ∧
    sortTaskNumbers ["2", "2.1"] = ["2.1", "2"] := by
  have h := C5_depth_ordering "- [ ] 2. R\n- [ ] 2.1 A\n- [ ] 2.2 B"
    ["2.2", "2.1"] ["2.1", "2.2"] (by decide)
  exact ⟨(h.1 rfl).1, h.2.2.1, h.2.2.2.2⟩

/-- C2 (counterexample): the id-token matcher is a word-boundary regex, and
a dot is a non-word character, so id `1` *does* match inside the token
`11.1` (the segment after the dot): `containsTaskNumber` accepts task
`11.1`'s line for id `1`, and `completeBatch(D, ["1"])` on a document with
tasks `11.1` and `1` marks `11.1`'s line as well. -/
theorem C2_boundary_counterexample :
    containsTaskNumber "- [ ] 11.1 A" "1" = true ∧
    (completeBatchTasks "- [ ] 11.1 A\n- [ ] 1. B" ["1"]).updatedText
      = "- [x] 11.1 A\n- [x] 1. B" :=
  ⟨rfl, rfl⟩

/-- C2 (amended): the mutation's id-token matcher requires a word boundary
on both sides of the id: whenever it accepts a line, the id occurs in the
checkbox-stripped line with a non-word character (or the string edge) on
each side.  Hence an id never matches inside a longer digit run — for a
document with tasks `1` and `11`, `completeBatch(D, ["1"])` does not mark
`11`'s line — but a dot is itself a non-word character, so id `1` can still
match inside the dotted token `11.1`. -/
theorem C2_boundary_amended :
    (∀ (line num : String), containsTaskNumber line num = true →
      ∃ pre post, removeAllCheckboxes line.data = pre ++ num.data ++ post ∧
        (∀ c, pre.getLast? = some c → isWordChar c = false) ∧
        (∀ c, post.head? = some c → isWordChar c = false)) ∧
    containsTaskNumber "- [ ] 11. B" "1" = false ∧
    (completeBatchTasks "- [ ] 1. A\n- [ ] 11. B" ["1"]).updatedText
      = "- [x] 1. A\n- [ ] 11. B" ∧
    containsTaskNumber "- [ ] 11.1 A" "1" = true := by
  refine ⟨?_, rfl, rfl, rfl⟩
  intro line num h
  obtain ⟨pre, post, heq, _, hlast, hhead⟩ :=
    hasWordBoundedOccur_decomp num.data none (removeAllCheckboxes line.data) h
  exact ⟨pre, post, heq, hlast, hhead⟩

/-- C2 (witness): the boundary soundness applied to task `2`'s own line. -/
theorem C2_boundary_amended_witness :
    ∃ pre post, removeAllCheckboxes ("- [ ] 2. X" : String).data
        = pre ++ ("2" : String).data ++ post ∧
      (∀ c, pre.getLast? = some c → isWordChar c = false) ∧
      (∀ c, post.head? = some c → isWordChar c = false) :=
  C2_boundary_amended.1 "- [ ] 2. X" "2" rfl

/-- C6 (counterexample): the scan does not try "id before glyph".  The line
`"1. [ ] Alpha"` contains a recognized checkbox glyph with the id `1`
adjacent before it, yet the parser extracts no task at all: both the
primary and the fallback matcher only look for an id after the glyph. -/
theorem C6_scan_counterexample :
    findCheckbox "1. [ ] Alpha".data = some ' ' ∧
    scanTasks ["1. [ ] Alpha"] = [] ∧
    parseTasksFromContent "1. [ ] Alpha" = [] :=
  ⟨rfl, rfl, rfl⟩

/-- C6 (amended): for every line containing a recognized checkbox glyph
(`[ ]`, `[x]`, `[X]`), the scan extracts the completion flag from the glyph
and an id as a dotted run of digits after the glyph — first with an
anchored `markers glyph markers id delimiter` pattern, then with a looser
"id directly after a glyph" fallback; ids placed before the glyph are not
recognized.  The description is the remainder of the line after stripping
glyph and id, trimmed; when empty it is taken from the next line provided
that line is neither another checkbox line nor a heading. -/
theorem C6_scan_amended :
    parseTasksFromContent "- [ ] 3. Alpha" = [Task.mk "3" "Alpha" false none false] ∧
    parseTasksFromContent "- [x] 3. Alpha" = [Task.mk "3" "Alpha" true none false] ∧
    parseTasksFromContent "- [X] 3. Alpha" = [Task.mk "3" "Alpha" true none false] ∧
    scanTasks ["- [ ] 4.", "Next desc"] = [Task.mk "4" "Next desc" false none false] ∧
    scanTasks ["- [ ] 4.", "# Head"] = [] ∧
    scanTasks ["- [ ] 4.", "- [ ] 5. B"] = [Task.mk "5" "B" false none false] ∧
    scanTasks ["## [ ] 7 Alpha"] = [Task.mk "7" "##  7 Alpha" false none false] ∧
    scanTasks ["1. [ ] Alpha"] = [] :=
  ⟨rfl, rfl, rfl, rfl, rfl, rfl, rfl, rfl⟩

/-- C9 (counterexample): with two task lines carrying the same id `3`, a
completion mutation for `3` flips *both* lines, not only the first textual
match — the later duplicate line is not left as it was. -/
theorem C9_duplicate_counterexample :
    (completeBatchTasks "- [ ] 3. A\n- [ ] 3. B" ["3"]).updatedText
      = "- [x] 3. A\n- [x] 3. B" ∧
    markTaskAsCompleted "- [ ] 3. A\n- [ ] 3. B" "3"
      = some "- [x] 3. A\n- [x] 3. B" :=
  ⟨rfl, rfl⟩

/-- C9 (amended): duplicate ids at the same level are both retained by the
parser (no deduplication), and a completion mutation targeting that id
flips every line that contains an unchecked box and word-boundary-matches
the id — in particular both duplicate lines in one call. -/
theorem C9_duplicate_amended :
    parseTasksFromContent "- [ ] 3. A\n- [ ] 3. B"
      = [Task.mk "3" "A" false none false, Task.mk "3" "B" false none false] ∧
    (completeBatchTasks "- [ ] 3. A\n- [ ] 3. B" ["3"]).success = true ∧
    (completeBatchTasks "- [ ] 3. A\n- [ ] 3. B" ["3"]).completedTasks = ["3"] ∧
    (completeBatchTasks "- [ ] 3. A\n- [ ] 3. B" ["3"]).updatedText
      = "- [x] 3. A\n- [x] 3. B" :=
  ⟨rfl, rfl, rfl, rfl⟩

/-- C3 (counterexample): the engine queues the prefix before the *last* dot
as parent, not the id's first dot-segment.  Completing `1.2.3` while the
only other child `1.1` of root `1` is already checked leaves root `1`
unchecked (the engine looked for a parent `1.2`, which does not exist), so
the parent named by the data model (first dot-segment `1`) is not completed
in the same pass. -/
theorem C3_parent_counterexample :
    (completeBatchTasks "- [ ] 1. Root\n- [x] 1.1 A\n- [ ] 1.2.3 B" ["1.2.3"]).success = true ∧
    (completeBatchTasks "- [ ] 1. Root\n- [x] 1.1 A\n- [ ] 1.2.3 B" ["1.2.3"]).updatedText
      = "- [ ] 1. Root\n- [x] 1.1 A\n- [x] 1.2.3 B" ∧
    lastDotPrefix "1.2.3" = "1.2" ∧
    firstSegment "1.2.3" = "1" :=
  ⟨rfl, rfl, rfl, rfl⟩

/-- C3 (amended): when an id is flipped, the engine recomputes whether the
id's *immediate* parent — the prefix before the id's last dot — should
auto-complete (true iff every other parsed sibling is already checked) and
marks it in the same pass; the queued set is always the id alone or the id
plus that immediate parent.  For depth-2 ids the immediate parent is the
first dot-segment, so completing `["2.1","2.2"]` under root `2` checks both
children and the root in one call; for deeper ids the engine looks up a
node the parser never gives children to, so no parent is queued. -/
theorem C3_parent_amended :
    (∀ (tasks : List Task) (id : String),
      markNumbersFor tasks id = [id] ∨
      markNumbersFor tasks id = [id, lastDotPrefix id]) ∧
    markNumbersFor (parseTasksFromContent "- [ ] 2. R\n- [x] 2.1 A\n- [ ] 2.2 B") "2.2"
      = ["2.2", "2"] ∧
    markNumbersFor (parseTasksFromContent "- [ ] 1. Root\n- [x] 1.1 A\n- [ ] 1.2.3 B") "1.2.3"
      = ["1.2.3"] ∧
    (completeBatchTasks "- [ ] 2. R\n- [ ] 2.1 A\n- [ ] 2.2 B" ["2.1", "2.2"]).success = true ∧
    (completeBatchTasks "- [ ] 2. R\n- [ ] 2.1 A\n- [ ] 2.2 B" ["2.1", "2.2"]).completedTasks
      = ["2.1", "2.2"] ∧
    (completeBatchTasks "- [ ] 2. R\n- [ ] 2.1 A\n- [ ] 2.2 B" ["2.1", "2.2"]).updatedText
      = "- [x] 2. R\n- [x] 2.1 A\n- [x] 2.2 B" := by
  refine ⟨?_, rfl, rfl, rfl, rfl, rfl⟩
  intro tasks id
  simp only [markNumbersFor]
  repeat' split
  all_goals first
  | exact Or.inr rfl
  | exact Or.inl rfl

/-- C7: for every text, every scanned task whose id contains a dot is
attached under a parsed root keyed by the id's first dot-segment; if no
dotless task with that key was scanned, the root is synthetic
(`isVirtual = true`) with the title resolved from a heading or
bold-emphasis line beginning with `<key>.` (fallback `Task Group <key>`,
as computed by `titleForGroup`); in particular, a document containing only
task `15.1` parses to a synthetic root `15` titled `Task Group 15` whose
only child is `15.1`. -/
theorem C7_orphan_synthesis :
    (∀ (content : String) (t : Task),
      t ∈ scanTasks (splitLines content) →
      strContains t.number '.' = true →
      ∃ r ∈ parseTasksFromContent content,
        r.number = firstSegment t.number ∧
        (∃ l, r.subtasks = some l ∧ t ∈ l) ∧
        (¬firstSegment t.number ∈ scannedRootNums (scanTasks (splitLines content)) →
          r.isVirtual = true ∧
          r.description = titleForGroup (splitLines content) (firstSegment t.number))) ∧
    parseTasksFromContent "- [ ] 15.1 Something"
      = [Task.mk "15" "Task Group 15" false
          (some [Task.mk "15.1" "Something" false none false]) true] :=
  ⟨fun content t ht hd => parse_orphan content t ht hd, rfl⟩

/-- C7 witness: the general clause applied to the single scanned task
`15.1` of the document `- [ ] 15.1 Something`. -/
theorem C7_orphan_synthesis_witness :
    (Task.mk "15.1" "Something" false none false)
        ∈ scanTasks (splitLines "- [ ] 15.1 Something") ∧
    strContains (Task.mk "15.1" "Something" false none false).number '.' = true ∧
    ∃ r ∈ parseTasksFromContent "- [ ] 15.1 Something",
      r.number = firstSegment "15.1" ∧
      (∃ l, r.subtasks = some l ∧ (Task.mk "15.1" "Something" false none false) ∈ l) ∧
      (¬firstSegment "15.1"
          ∈ scannedRootNums (scanTasks (splitLines "- [ ] 15.1 Something")) →
        r.isVirtual = true ∧
        r.description = titleForGroup (splitLines "- [ ] 15.1 Something")
          (firstSegment "15.1")) :=
  ⟨by
     rw [show scanTasks (splitLines "- [ ] 15.1 Something")
           = [Task.mk "15.1" "Something" false none false] from rfl]
     exact List.mem_singleton.mpr rfl,
   rfl,
   C7_orphan_synthesis.1 "- [ ] 15.1 Something"
     (Task.mk "15.1" "Something" false none false)
     (by
        rw [show scanTasks (splitLines "- [ ] 15.1 Something")
              = [Task.mk "15.1" "Something" false none false] from rfl]
        exact List.mem_singleton.mpr rfl)
     rfl⟩

end SpecsWorkflow

